import Mathlib

set_option maxHeartbeats 1000000

/-!
Verification of the EM-based abundance estimation program
(`EM_classification.py`).  The Python data structures are shallowly
embedded: a Python dict is a finite key set together with a value
function, CIGAR tallies are integer vectors, probabilities and
log-likelihood scores live in an ordered field (`ℚ` for executable
checks, `ℝ` with `Real.exp`/`Real.log` for the EM analysis), and the
unbounded EM loop is given explicit fuel, returning `none` when the
fuel runs out before convergence.
-/

/-- Shallow embedding of a Python dict: a finite key set together with a
value function.  Only the values on `keys` are meaningful. -/
@[ext]
structure PyDict (α : Type) (K : Type) where
  keys : Finset α
  val : α → K

/-- Sum of the values of a dict over its keys (Python `sum(d.values())`). -/
def sumF {α K : Type} [AddCommMonoid K] (d : PyDict α K) : K :=
  ∑ k in d.keys, d.val k

/-- Result of `get_align_stats`: the per-alignment dict of CIGAR category
counts after the conversion performed by the program
(`X := NM - I - D`, `M := M - X`, `C := H + S`). -/
structure AlignStats where
  M : ℤ
  I : ℤ
  D : ℤ
  N : ℤ
  S : ℤ
  H : ℤ
  P : ℤ
  Eq : ℤ
  X : ℤ
  B : ℤ
  C : ℤ

/-- Embedding of `get_align_stats`: the raw tally is the length-11 vector of
CIGAR stats in the canonical order `M I D N S H P = X B NM` (the pysam
order); the returned dict has the `NM` entry removed, `X` recomputed as
`NM - I - D`, `M` decremented by the new `X`, and `C = H + S` added. -/
def get_align_stats (cigar_stats : Fin 11 → ℤ) : AlignStats :=
  { M := cigar_stats 0 - (cigar_stats 10 - cigar_stats 1 - cigar_stats 2)
    I := cigar_stats 1
    D := cigar_stats 2
    N := cigar_stats 3
    S := cigar_stats 4
    H := cigar_stats 5
    P := cigar_stats 6
    Eq := cigar_stats 7
    X := cigar_stats 10 - cigar_stats 1 - cigar_stats 2
    B := cigar_stats 9
    C := cigar_stats 5 + cigar_stats 4 }

/-- Keys of the converted CIGAR-stats dict. -/
inductive CigarOp : Type
  | M | I | D | N | S | H | P | Eq | X | B | C
deriving DecidableEq, Fintype

/-- Lookup in the converted CIGAR-stats dict. -/
def statsVal (st : AlignStats) : CigarOp → ℤ
  | CigarOp.M => st.M
  | CigarOp.I => st.I
  | CigarOp.D => st.D
  | CigarOp.N => st.N
  | CigarOp.S => st.S
  | CigarOp.H => st.H
  | CigarOp.P => st.P
  | CigarOp.Eq => st.Eq
  | CigarOp.X => st.X
  | CigarOp.B => st.B
  | CigarOp.C => st.C

/-- One alignment record as the program reads it from the alignment file:
read name, reference name (`none` when unmapped), the secondary and
supplementary flags, and the raw length-11 CIGAR stats vector. -/
structure AlignmentRecord where
  query_name : ℕ
  reference_name : Option ℕ
  is_secondary : Bool
  is_supplementary : Bool
  cigar_stats : Fin 11 → ℤ

/-- The records kept by the model-building pass: neither secondary nor
supplementary (`if not read.is_secondary and not read.is_supplementary`). -/
def primaryRecords (recs : List AlignmentRecord) : List AlignmentRecord :=
  recs.filter (fun rec => !rec.is_secondary && !rec.is_supplementary)

/-- Python `Counter` lookup: a missing key counts as `0`. -/
def getC {α : Type} [DecidableEq α] (d : PyDict α ℤ) (k : α) : ℤ :=
  if k ∈ d.keys then d.val k else 0

/-- Python `Counter + Counter`: values are added pointwise and only keys
with a strictly positive result are kept. -/
def counterAdd (a b : PyDict CigarOp ℤ) : PyDict CigarOp ℤ :=
  ⟨(a.keys ∪ b.keys).filter (fun k => 0 < getC a k + getC b k),
   fun k => getC a k + getC b k⟩

/-- Accumulation loop of `get_char_align_probabilites`: the converted stats
of each primary alignment are added into the running `Counter`. -/
def tallyFold (sts : List AlignStats) (a : PyDict CigarOp ℤ) : PyDict CigarOp ℤ :=
  sts.foldl (fun acc st => counterAdd acc ⟨Finset.univ, statsVal st⟩) a

/-- Embedding of `get_char_align_probabilites`: accumulate the converted
CIGAR stats of all primary alignments with `Counter` addition and divide
each accumulated count by the total count.  When there is no primary
alignment (or every accumulated count is non-positive) the accumulator is
the empty dict and the returned dict is empty as well: the Python dict
comprehension never divides and no error is raised. -/
def get_char_align_probabilites (K : Type) [LinearOrderedField K]
    (recs : List AlignmentRecord) : PyDict CigarOp K :=
  let acc := tallyFold ((primaryRecords recs).map
    (fun rec => get_align_stats rec.cigar_stats)) ⟨∅, fun _ => 0⟩
  ⟨acc.keys, fun k => (acc.val k : K) / ((sumF acc : ℤ) : K)⟩

/-- The categories scored by `compute_log_L_rgs`, in program order. -/
def scoreOps : List CigarOp :=
  [CigarOp.M, CigarOp.X, CigarOp.I, CigarOp.D, CigarOp.C]

/-- Embedding of `compute_log_L_rgs`: walk over `M X I D C`; if a category
is absent from the model while its count is strictly positive the
alignment is unscorable (`none`); otherwise each present category
contributes `log(p) * count`.  `lg` stands for `math.log`. -/
def compute_log_L_rgs {K : Type} [LinearOrderedField K] (lg : K → K)
    (p_char : PyDict CigarOp K) (cigar_stats : AlignStats) : Option K :=
  scoreOps.foldl
    (fun value c =>
      match value with
      | none => none
      | some v =>
        if c ∉ p_char.keys ∧ 0 < statsVal cigar_stats c then none
        else if c ∈ p_char.keys then
          some (v + lg (p_char.val c) * (statsVal cigar_stats c : K))
        else some v)
    (some 0)

/-- Store `v` under `pair` in the matrix dict. -/
def insertPD {K : Type} (d : PyDict (ℕ × ℕ) K) (pair : ℕ × ℕ) (v : K) :
    PyDict (ℕ × ℕ) K :=
  ⟨insert pair d.keys, fun p => if p = pair then v else d.val p⟩

/-- One step of the matrix-building loop of `log_L_rgs_dict` for a single
alignment record.  The guard is evaluated exactly as Python does:
`((pair not in d) or (d[pair] < val)) and (val != None)`.  When `pair`
is already stored, `d[pair] < val` is evaluated first; if `val` is
`None`, comparing a float with `None` raises `TypeError` in Python 3 —
this is the `Except.error` case. -/
def buildStep {K : Type} [LinearOrderedField K] (lg : K → K)
    (p_char : PyDict CigarOp K) (d : PyDict (ℕ × ℕ) K)
    (rec : AlignmentRecord) : Except Unit (PyDict (ℕ × ℕ) K) :=
  match rec.reference_name with
  | none => Except.ok d
  | some ref =>
    match compute_log_L_rgs lg p_char (get_align_stats rec.cigar_stats) with
    | none =>
      if (rec.query_name, ref) ∈ d.keys then Except.error ()
      else Except.ok d
    | some v =>
      if (rec.query_name, ref) ∈ d.keys then
        if d.val (rec.query_name, ref) < v then
          Except.ok (insertPD d (rec.query_name, ref) v)
        else Except.ok d
      else Except.ok (insertPD d (rec.query_name, ref) v)

/-- The matrix-building loop over the list of alignment records. -/
def log_L_rgs_go {K : Type} [LinearOrderedField K] (lg : K → K)
    (p_char : PyDict CigarOp K) :
    List AlignmentRecord → PyDict (ℕ × ℕ) K → Except Unit (PyDict (ℕ × ℕ) K)
  | [], d => Except.ok d
  | rec :: rest, d =>
    match buildStep lg p_char d rec with
    | Except.error e => Except.error e
    | Except.ok d2 => log_L_rgs_go lg p_char rest d2

/-- Embedding of `log_L_rgs_dict`: fold the records into an initially empty
dict of best scores per `(read, reference)` pair. -/
def log_L_rgs_dict {K : Type} [LinearOrderedField K]
    (recs : List AlignmentRecord) (p_char : PyDict CigarOp K) (lg : K → K) :
    Except Unit (PyDict (ℕ × ℕ) K) :=
  log_L_rgs_go lg p_char recs ⟨∅, fun _ => 0⟩

/-- Score contributed by one record towards `pair`: its log-likelihood when
the record is mapped, aimed at `pair`, and scorable. -/
def headScore {K : Type} [LinearOrderedField K] (lg : K → K)
    (p_char : PyDict CigarOp K) (rec : AlignmentRecord) (pair : ℕ × ℕ) :
    Option K :=
  match rec.reference_name with
  | none => none
  | some ref =>
    if (rec.query_name, ref) = pair then
      compute_log_L_rgs lg p_char (get_align_stats rec.cigar_stats)
    else none

/-- All scores of scorable alignment records for a given pair, in input
order. -/
def scorableScores {K : Type} [LinearOrderedField K] (lg : K → K)
    (p_char : PyDict CigarOp K) (recs : List AlignmentRecord) (pair : ℕ × ℕ) :
    List K :=
  recs.filterMap (fun rec => headScore lg p_char rec pair)

/-- Stored entry of a matrix dict as an element of `WithBot K`: `⊥` when the
pair is absent. -/
def entryW {K : Type} [LinearOrderedField K] (d : PyDict (ℕ × ℕ) K)
    (pair : ℕ × ℕ) : WithBot K :=
  if pair ∈ d.keys then (d.val pair : WithBot K) else ⊥

/-- View an optional score as an element of `WithBot K`. -/
def optW {K : Type} (o : Option K) : WithBot K :=
  match o with
  | none => ⊥
  | some v => (v : WithBot K)

/-- Key set of a successful matrix build, `∅` on failure. -/
def okKeys {K : Type} (e : Except Unit (PyDict (ℕ × ℕ) K)) : Finset (ℕ × ℕ) :=
  match e with
  | Except.ok d => d.keys
  | Except.error _ => ∅

/-- Whether the matrix build aborted with the Python 3 `TypeError`. -/
def isErrB {K : Type} (e : Except Unit (PyDict (ℕ × ℕ) K)) : Bool :=
  match e with
  | Except.error _ => true
  | Except.ok _ => false

/-- Embedding of `f_reduce`: keep the entries strictly above the threshold
and divide each kept value by the sum of the kept values.  When every
entry is filtered out the returned dict is empty: the Python dict
comprehension never divides and no error is raised. -/
def f_reduce {K : Type} [LinearOrderedField K] (f : PyDict ℕ K)
    (threshold : K) : PyDict ℕ K :=
  ⟨f.keys.filter (fun k => threshold < f.val k),
   fun k => f.val k /
     sumF (⟨f.keys.filter (fun k2 => threshold < f.val k2), f.val⟩ : PyDict ℕ K)⟩

/-- Reads appearing in a set of (read, reference) pairs. -/
def readsOf (E : Finset (ℕ × ℕ)) : Finset ℕ := E.image Prod.fst

/-- References appearing in a set of (read, reference) pairs. -/
def refsOf (E : Finset (ℕ × ℕ)) : Finset ℕ := E.image Prod.snd

/-- References aligned to read `r` within `E`. -/
def refsFor (E : Finset (ℕ × ℕ)) (r : ℕ) : Finset ℕ :=
  (E.filter (fun p => p.1 = r)).image Prod.snd

/-- Reads aligned to reference `s` within `E`. -/
def readsFor (E : Finset (ℕ × ℕ)) (s : ℕ) : Finset ℕ :=
  (E.filter (fun p => p.2 = s)).image Prod.fst

/-- Key set of `log_L_rns`: the matrix entries whose reference is a key of
the current abundance dict with a nonzero value
(`if s in f and f[s] != 0`). -/
def activeP {K : Type} [LinearOrderedField K] (L : PyDict (ℕ × ℕ) K)
    (f : PyDict ℕ K) : Finset (ℕ × ℕ) :=
  L.keys.filter (fun p => p.2 ∈ f.keys ∧ f.val p.2 ≠ 0)

/-- Joint score `log_L_rns[(r,s)] = log_L_rgs[(r,s)] + log(f[s])`. -/
def jscF {K : Type} [LinearOrderedField K] (lg : K → K) (L : PyDict (ℕ × ℕ) K)
    (f : PyDict ℕ K) (r s : ℕ) : K :=
  L.val (r, s) + lg (f.val s)

/-- Per-read stabilizer `log_c[r] = -max_s log_L_rns[(r,s)]`. -/
def logcF {K : Type} [LinearOrderedField K] (lg : K → K) (L : PyDict (ℕ × ℕ) K)
    (E : Finset (ℕ × ℕ)) (f : PyDict ℕ K) (r : ℕ) : K :=
  -(((refsFor E r).image (jscF lg L f r)).max.unbot' 0)

/-- Stabilized weight `L_rns_c[(r,s)] = e^(log_L_rns[(r,s)] + log_c[r])`.
`ex` stands for `math.e ** ·`. -/
def wgtF {K : Type} [LinearOrderedField K] (ex lg : K → K)
    (L : PyDict (ℕ × ℕ) K) (E : Finset (ℕ × ℕ)) (f : PyDict ℕ K) (r s : ℕ) : K :=
  ex (jscF lg L f r s + logcF lg L E f r)

/-- Per-read normalizer `L_r_c[r] = Σ_s L_rns_c[(r,s)]`. -/
def WrF {K : Type} [LinearOrderedField K] (ex lg : K → K)
    (L : PyDict (ℕ × ℕ) K) (E : Finset (ℕ × ℕ)) (f : PyDict ℕ K) (r : ℕ) : K :=
  ∑ s in refsFor E r, wgtF ex lg L E f r s

/-- The M-step of one EM iteration: the new abundance dict
`f = {s: (Σ_r L_sgr[s][r]) / n_reads}`, keyed by the references that
appear in the active entries. -/
def updF {K : Type} [LinearOrderedField K] (ex lg : K → K)
    (L : PyDict (ℕ × ℕ) K) (f : PyDict ℕ K) : PyDict ℕ K :=
  ⟨refsOf (activeP L f),
   fun s =>
     (∑ r in readsFor (activeP L f) s,
       wgtF ex lg L (activeP L f) f r s / WrF ex lg L (activeP L f) f r) /
     ((readsOf (activeP L f)).card : K)⟩

/-- Total objective of one iteration:
`Σ_r (log(L_r_c[r]) - log_c[r])`, computed with the incoming `f`. -/
def totalLL {K : Type} [LinearOrderedField K] (ex lg : K → K)
    (L : PyDict (ℕ × ℕ) K) (f : PyDict ℕ K) : K :=
  ∑ r in readsOf (activeP L f),
    (lg (WrF ex lg L (activeP L f) f r) - logcF lg L (activeP L f) f r)

/-- Outcome of an EM run: the converged abundance dict, or one of the two
`ValueError` aborts of the program. -/
inductive EMoutcome (K : Type) : Type
  | success (f : PyDict ℕ K)
  | massFailure
  | monoFailure

/-- Embedding of the `while True` loop of `EM_iterations`, with explicit
fuel (`none` when the fuel is exhausted before the loop exits).  `prev`
is the previous total log-likelihood; `none` stands for the initial
`-math.inf`, for which both `diff < 0` and `diff < .01` are false
(`diff = +inf`), so the loop always continues.  The checks follow the
program order: the abundance-mass check, the monotonicity check, then
the convergence exit. -/
def EMloop {K : Type} [LinearOrderedField K] (ex lg : K → K)
    (L : PyDict (ℕ × ℕ) K) :
    ℕ → PyDict ℕ K → Option K → Option (EMoutcome K)
  | 0, _, _ => none
  | fuel + 1, f, prev =>
    if ¬ ((999 / 1000 : K) ≤ sumF (updF ex lg L f) ∧
          sumF (updF ex lg L f) ≤ 10001 / 10000) then
      some EMoutcome.massFailure
    else
      match prev with
      | none =>
        EMloop ex lg L fuel (updF ex lg L f) (some (totalLL ex lg L f))
      | some p =>
        if totalLL ex lg L f - p < 0 then some EMoutcome.monoFailure
        else if totalLL ex lg L f - p < 1 / 100 then
          some (EMoutcome.success (updF ex lg L f))
        else EMloop ex lg L fuel (updF ex lg L f) (some (totalLL ex lg L f))

/-- Initial abundance dict `f = dict.fromkeys(db_ids, 1/n_db)`. -/
def initF {K : Type} [LinearOrderedField K] (db : Finset ℕ) : PyDict ℕ K :=
  ⟨db, fun _ => 1 / (db.card : K)⟩

/-- Embedding of `EM_iterations`, with explicit fuel. -/
def EM_iterations {K : Type} [LinearOrderedField K] (ex lg : K → K)
    (fuel : ℕ) (L : PyDict (ℕ × ℕ) K) (db : Finset ℕ) :
    Option (EMoutcome K) :=
  EMloop ex lg L fuel (initF db) none

/-- Whether an EM run returned a converged abundance dict. -/
def emReturns {K : Type} (o : Option (EMoutcome K)) : Prop :=
  match o with
  | some (EMoutcome.success _) => True
  | _ => False

/-- Key set of the returned abundance dict, `∅` when the run did not
return one. -/
def outKeys {K : Type} (o : Option (EMoutcome K)) : Finset ℕ :=
  match o with
  | some (EMoutcome.success f) => f.keys
  | _ => ∅

/-- Values of the returned abundance dict, `0` when the run did not
return one. -/
def outVal {K : Type} [Zero K] (o : Option (EMoutcome K)) : ℕ → K :=
  match o with
  | some (EMoutcome.success f) => f.val
  | _ => fun _ => 0

/-- Matrix entries whose reference belongs to the database universe: the
active entry set of every iteration of a well-started run. -/
def activeE (L : PyDict (ℕ × ℕ) ℝ) (db : Finset ℕ) : Finset (ℕ × ℕ) :=
  L.keys.filter (fun p => p.2 ∈ db)

/-- Plain likelihood of one matrix entry. -/
noncomputable def expL (L : PyDict (ℕ × ℕ) ℝ) (p : ℕ × ℕ) : ℝ := Real.exp (L.val p)

/-- Per-read mixture likelihood `A_r(f) = Σ_s L(r|s)·f_s` over the active
entries. -/
noncomputable def Aval (L : PyDict (ℕ × ℕ) ℝ) (db : Finset ℕ) (f : PyDict ℕ ℝ) (r : ℕ) : ℝ :=
  ∑ s in refsFor (activeE L db) r, expL L (r, s) * f.val s

/-- Invariant of the abundance dict along a run: its active entry set is
exactly `activeE`, it is strictly positive on the references of
`activeE`, and its mass on those references is at most one. -/
def Good (L : PyDict (ℕ × ℕ) ℝ) (db : Finset ℕ) (f : PyDict ℕ ℝ) : Prop :=
  activeP L f = activeE L db ∧
  (∀ s ∈ refsOf (activeE L db), 0 < f.val s) ∧
  (∑ s in refsOf (activeE L db), f.val s) ≤ 1

/-- Value stored by a successful matrix build, `0` on failure. -/
def okVal {K : Type} [Zero K] (e : Except Unit (PyDict (ℕ × ℕ) K))
    (pair : ℕ × ℕ) : K :=
  match e with
  | Except.ok d => d.val pair
  | Except.error _ => 0

/-- Total count of one category across the primary alignments of the
input, after the `get_align_stats` conversion. -/
def catSum (recs : List AlignmentRecord) (k : CigarOp) : ℤ :=
  ((primaryRecords recs).map
    (fun rec => statsVal (get_align_stats rec.cigar_stats) k)).sum

/-- Raw tally of the spec's conversion example
`[90, 2, 1, 0, 5, 0, 0, 0, 0, 0, 5]`. -/
def exCigar9 : Fin 11 → ℤ :=
  fun i =>
    if i = 0 then 90 else if i = 1 then 2 else if i = 2 then 1
    else if i = 4 then 5 else if i = 10 then 5 else 0

/-- Raw tally with `m` matches, edit distance `nm` and all other counts
zero. -/
def cigM (m nm : ℤ) : Fin 11 → ℤ :=
  fun i => if i = 0 then m else if i = 10 then nm else 0

/-- A secondary alignment record with an all-zero tally. -/
def recSec : AlignmentRecord := ⟨0, none, true, false, fun _ => 0⟩

/-- A primary record with an all-zero tally (e.g. an unmapped read). -/
def recPrim0 : AlignmentRecord := ⟨0, none, false, false, fun _ => 0⟩

/-- A primary mapped record with `m` matches and edit distance `nm`. -/
def recM (q ref : ℕ) (m nm : ℤ) : AlignmentRecord :=
  ⟨q, some ref, false, false, cigM m nm⟩

/-- Operation-probability model containing only the match category. -/
def pM : PyDict CigarOp ℚ := ⟨{CigarOp.M}, fun _ => 1⟩

/-- Surrogate for `math.log` in the executable rational examples: the
constant `-1/10`. -/
def lgTenth : ℚ → ℚ := fun _ => -(1 / 10)

/-- Example abundance dict for the reduction claims. -/
def fEx : PyDict ℕ ℚ := ⟨{0, 1}, fun k => if k = 0 then 3 / 4 else 1 / 4⟩

/-- Concrete likelihood matrix for the EM claims: one read, one reference,
log-likelihood 0. -/
def L0 : PyDict (ℕ × ℕ) ℝ := ⟨{(0, 0)}, fun _ => 0⟩

/-- C9: for every raw tally of 11 counts in canonical order,
`get_align_stats` returns substitution `X = NM - I - D`, match
`M = raw_match - X`, clip `C = soft_clip + hard_clip`, with insertion and
deletion passed through unchanged; on the example
`[90, 2, 1, 0, 5, 0, 0, 0, 0, 0, 5]` this yields substitution 2,
match 88 and clip 5. -/
theorem claim_C9 :
    (∀ cs : Fin 11 → ℤ,
      (get_align_stats cs).X = cs 10 - cs 1 - cs 2 ∧
      (get_align_stats cs).M = cs 0 - (get_align_stats cs).X ∧
      (get_align_stats cs).C = cs 4 + cs 5 ∧
      (get_align_stats cs).I = cs 1 ∧
      (get_align_stats cs).D = cs 2) ∧
    (get_align_stats exCigar9).X = 2 ∧
    (get_align_stats exCigar9).M = 88 ∧
    (get_align_stats exCigar9).C = 5 := by
  refine ⟨fun cs => ⟨rfl, rfl, add_comm _ _, rfl, rfl⟩, by decide, by decide, by decide⟩

/-- C6 counterexample: on an input whose only record is a secondary
alignment (hence with no primary alignments) the model builder does not
fail; it returns the empty model dict. -/
theorem claim_C6_counterexample :
    (get_char_align_probabilites ℚ [recSec]).keys = ∅ ∧
    sumF (get_char_align_probabilites ℚ [recSec]) = 0 := by
  exact ⟨by decide, by decide⟩

/-- C6 amended: when the input contains no primary alignments the model
builder does not fail; it returns the empty model (no category stored,
total probability zero). -/
theorem claim_C6 (recs : List AlignmentRecord)
    (h : primaryRecords recs = []) :
    (get_char_align_probabilites ℚ recs).keys = ∅ ∧
    sumF (get_char_align_probabilites ℚ recs) = 0 := by
  simp [get_char_align_probabilites, h, tallyFold, sumF]

/-- C6 witness: the amended statement applied to the empty input. -/
theorem claim_C6_witness :
    primaryRecords [] = [] ∧
    (get_char_align_probabilites ℚ []).keys = ∅ := by
  exact ⟨rfl, (claim_C6 [] rfl).1⟩

/-- C7 counterexample: when every entry is at most the threshold,
`f_reduce` does not fail; it returns the empty dict. -/
theorem claim_C7_counterexample :
    (f_reduce (⟨{0}, fun _ => 1 / 2⟩ : PyDict ℕ ℚ) 1).keys = ∅ ∧
    sumF (f_reduce (⟨{0}, fun _ => 1 / 2⟩ : PyDict ℕ ℚ) 1) = 0 := by
  have hk : (f_reduce (⟨{0}, fun _ => 1 / 2⟩ : PyDict ℕ ℚ) 1).keys = ∅ := by
    show Finset.filter _ ({0} : Finset ℕ) = ∅
    rw [Finset.filter_singleton]
    norm_num
  refine ⟨hk, ?_⟩
  unfold sumF
  rw [hk, Finset.sum_empty]

/-- C7 amended: `f_reduce` returns exactly the dict
`{s : f_s / Σ_kept f_k | f_s > ε}`; when the kept mass is positive the
result sums to one, and when every entry is at most the threshold it
returns the empty dict rather than failing. -/
theorem claim_C7 (f : PyDict ℕ ℚ) (t : ℚ) :
    (f_reduce f t).keys = f.keys.filter (fun k => t < f.val k) ∧
    (∀ k ∈ (f_reduce f t).keys,
      (f_reduce f t).val k =
        f.val k /
          sumF (⟨f.keys.filter (fun k2 => t < f.val k2), f.val⟩ : PyDict ℕ ℚ)) ∧
    ((∀ k ∈ f.keys, f.val k ≤ t) → (f_reduce f t).keys = ∅) ∧
    (0 < sumF (⟨f.keys.filter (fun k2 => t < f.val k2), f.val⟩ : PyDict ℕ ℚ) →
      sumF (f_reduce f t) = 1) := by
  refine ⟨rfl, fun k _ => rfl, ?_, ?_⟩
  · intro h
    show f.keys.filter (fun k => t < f.val k) = ∅
    rw [Finset.filter_eq_empty_iff]
    intro k hk
    exact not_lt.mpr (h k hk)
  · intro hpos
    show (∑ k in f.keys.filter (fun k => t < f.val k),
      f.val k / sumF (⟨f.keys.filter (fun k2 => t < f.val k2), f.val⟩ : PyDict ℕ ℚ)) = 1
    rw [← Finset.sum_div]
    exact div_self (ne_of_gt hpos)

/-- C7 witness: the amended statement applied to a concrete dict with one
entry above and one entry below the threshold. -/
theorem claim_C7_witness :
    (f_reduce fEx (1 / 2)).keys = ({0} : Finset ℕ) ∧
    sumF (f_reduce fEx (1 / 2)) = 1 := by
  have hf : fEx.keys.filter (fun k2 => (1 : ℚ) / 2 < fEx.val k2) = {0} := by
    show (insert 0 {1} : Finset ℕ).filter _ = {0}
    rw [Finset.filter_insert, Finset.filter_singleton]
    norm_num [fEx]
  have hpos : 0 <
      sumF (⟨fEx.keys.filter (fun k2 => (1 : ℚ) / 2 < fEx.val k2), fEx.val⟩ :
        PyDict ℕ ℚ) := by
    unfold sumF
    rw [show (⟨fEx.keys.filter (fun k2 => (1 : ℚ) / 2 < fEx.val k2), fEx.val⟩ :
      PyDict ℕ ℚ).keys = {0} from hf]
    rw [Finset.sum_singleton]
    norm_num [fEx]
  exact ⟨(claim_C7 fEx (1 / 2)).1.trans hf, (claim_C7 fEx (1 / 2)).2.2.2 hpos⟩

theorem getC_pos_mem {α : Type} [DecidableEq α] {d : PyDict α ℤ} {k : α}
    (h : 0 < getC d k) : k ∈ d.keys := by
  by_contra hk
  rw [getC, if_neg hk] at h
  exact lt_irrefl 0 h

theorem getC_counterAdd (a b : PyDict CigarOp ℤ) (k : CigarOp)
    (ha : 0 ≤ getC a k) (hb : 0 ≤ getC b k) :
    getC (counterAdd a b) k = getC a k + getC b k := by
  by_cases hpos : 0 < getC a k + getC b k
  · have hmem : k ∈ a.keys ∪ b.keys := by
      rcases lt_or_eq_of_le ha with h1 | h1
      · exact Finset.mem_union_left _ (getC_pos_mem h1)
      · refine Finset.mem_union_right _ (getC_pos_mem ?_)
        omega
    have hk : k ∈ (counterAdd a b).keys := Finset.mem_filter.mpr ⟨hmem, hpos⟩
    rw [getC, if_pos hk]
    rfl
  · have hz : getC a k + getC b k = 0 :=
      le_antisymm (not_lt.mp hpos) (add_nonneg ha hb)
    have hk : k ∉ (counterAdd a b).keys := fun hmem =>
      hpos (Finset.mem_filter.mp hmem).2
    rw [getC, if_neg hk, hz]

theorem counterAdd_pos_on_keys (a b : PyDict CigarOp ℤ) :
    ∀ k ∈ (counterAdd a b).keys, 0 < (counterAdd a b).val k :=
  fun _ hk => (Finset.mem_filter.mp hk).2

theorem tallyFold_getC (sts : List AlignStats) :
    ∀ a : PyDict CigarOp ℤ, (∀ st ∈ sts, ∀ k, 0 ≤ statsVal st k) →
      (∀ k, 0 ≤ getC a k) → ∀ k,
      getC (tallyFold sts a) k =
        getC a k + (sts.map (fun st => statsVal st k)).sum := by
  induction sts with
  | nil => intro a _ _ k; simp [tallyFold]
  | cons st rest ih =>
    intro a hnn ha k
    have huniv : ∀ k2, getC (⟨Finset.univ, statsVal st⟩ : PyDict CigarOp ℤ) k2 =
        statsVal st k2 := by
      intro k2
      rw [getC, if_pos (Finset.mem_univ k2)]
    have hstep : ∀ k2, getC (counterAdd a ⟨Finset.univ, statsVal st⟩) k2 =
        getC a k2 + statsVal st k2 := by
      intro k2
      rw [← huniv k2]
      exact getC_counterAdd _ _ _ (ha k2)
        ((huniv k2).symm ▸ hnn st (List.mem_cons_self st rest) k2)
    have hrest : tallyFold (st :: rest) a =
        tallyFold rest (counterAdd a ⟨Finset.univ, statsVal st⟩) := rfl
    rw [hrest, ih _ (fun st2 h2 => hnn st2 (List.mem_cons_of_mem st h2))
      (fun k2 => by
        rw [hstep k2]
        exact add_nonneg (ha k2) (hnn st (List.mem_cons_self st rest) k2)) k,
      hstep k]
    simp [add_assoc]

theorem tallyFold_pos (sts : List AlignStats) :
    ∀ a : PyDict CigarOp ℤ, (∀ k ∈ a.keys, 0 < a.val k) →
      ∀ k ∈ (tallyFold sts a).keys, 0 < (tallyFold sts a).val k := by
  induction sts with
  | nil => intro a ha; exact ha
  | cons st rest ih =>
    intro a _
    exact ih _ (counterAdd_pos_on_keys _ _)

/-- C8 amended: on a corpus of primary-alignment tallies whose converted
counts are all nonnegative and not all zero, the model maps each
observed category to its total count divided by the grand total, stores
only strictly positive probabilities, omits zero-mass categories, and
the stored probabilities sum to exactly one. -/
theorem claim_C8 (recs : List AlignmentRecord)
    (hnn : ∀ rec ∈ primaryRecords recs, ∀ k,
      0 ≤ statsVal (get_align_stats rec.cigar_stats) k)
    (hpos : 0 < ∑ k in Finset.univ, catSum recs k) :
    (∀ k, k ∈ (get_char_align_probabilites ℚ recs).keys ↔ 0 < catSum recs k) ∧
    (∀ k ∈ (get_char_align_probabilites ℚ recs).keys,
      (get_char_align_probabilites ℚ recs).val k =
        (catSum recs k : ℚ) / ((∑ k2 in Finset.univ, catSum recs k2 : ℤ) : ℚ)) ∧
    (∀ k ∈ (get_char_align_probabilites ℚ recs).keys,
      0 < (get_char_align_probabilites ℚ recs).val k) ∧
    sumF (get_char_align_probabilites ℚ recs) = 1 := by
  set sts := (primaryRecords recs).map (fun rec => get_align_stats rec.cigar_stats)
    with hsts
  set acc := tallyFold sts ⟨∅, fun _ => 0⟩ with hacc
  have hnn2 : ∀ st ∈ sts, ∀ k, 0 ≤ statsVal st k := by
    intro st hst k
    rw [hsts] at hst
    obtain ⟨rec, hrec, hrfl⟩ := List.mem_map.mp hst
    exact hrfl ▸ hnn rec hrec k
  have h0 : ∀ k, 0 ≤ getC (⟨∅, fun _ => 0⟩ : PyDict CigarOp ℤ) k := by
    intro k
    rw [getC, if_neg (Finset.not_mem_empty k)]
  have hgetC : ∀ k, getC acc k = catSum recs k := by
    intro k
    rw [hacc, tallyFold_getC sts _ hnn2 h0 k, getC, if_neg (Finset.not_mem_empty k)]
    rw [hsts, List.map_map, zero_add]
    rfl
  have hposk : ∀ k ∈ acc.keys, 0 < acc.val k := by
    rw [hacc]
    exact tallyFold_pos sts _ (fun k hk => absurd hk (Finset.not_mem_empty k))
  have hvk : ∀ k ∈ acc.keys, acc.val k = catSum recs k := by
    intro k hk
    rw [← hgetC k, getC, if_pos hk]
  have hmem : ∀ k, k ∈ acc.keys ↔ 0 < catSum recs k := by
    intro k
    constructor
    · intro hk
      rw [← hvk k hk]
      exact hposk k hk
    · intro hlt
      exact getC_pos_mem (by rw [hgetC k]; exact hlt)
  have hsum : sumF acc = ∑ k in Finset.univ, catSum recs k := by
    rw [sumF]
    have h1 : ∑ k in acc.keys, acc.val k = ∑ k in acc.keys, getC acc k :=
      Finset.sum_congr rfl (fun k hk => by rw [getC, if_pos hk])
    have h2 : ∑ k in acc.keys, getC acc k = ∑ k in Finset.univ, getC acc k := by
      refine Finset.sum_subset (Finset.subset_univ acc.keys) ?_
      intro k _ hk
      rw [getC, if_neg hk]
    rw [h1, h2]
    exact Finset.sum_congr rfl (fun k _ => hgetC k)
  have hkeys : (get_char_align_probabilites ℚ recs).keys = acc.keys := rfl
  have hval : ∀ k, (get_char_align_probabilites ℚ recs).val k =
      (acc.val k : ℚ) / ((sumF acc : ℤ) : ℚ) := fun k => rfl
  have hTne : ((sumF acc : ℤ) : ℚ) ≠ 0 := by
    rw [hsum]
    exact_mod_cast ne_of_gt hpos
  refine ⟨?_, ?_, ?_, ?_⟩
  · intro k
    rw [hkeys]
    exact hmem k
  · intro k hk
    rw [hval k, hvk k (hkeys ▸ hk), hsum]
  · intro k hk
    rw [hval k]
    apply div_pos
    · exact_mod_cast hposk k (hkeys ▸ hk)
    · rw [hsum]
      exact_mod_cast hpos
  · rw [sumF]
    have : ∀ k ∈ (get_char_align_probabilites ℚ recs).keys,
        (get_char_align_probabilites ℚ recs).val k =
          (acc.val k : ℚ) / ((sumF acc : ℤ) : ℚ) := fun k _ => hval k
    rw [Finset.sum_congr rfl this, ← Finset.sum_div, hkeys]
    rw [show (∑ k in acc.keys, (acc.val k : ℚ)) = ((∑ k in acc.keys, acc.val k : ℤ) : ℚ)
      from by push_cast; rfl]
    rw [show (∑ k in acc.keys, acc.val k) = sumF acc from rfl]
    exact div_self hTne

/-- C8 witness: the amended statement applied to a one-record corpus with
three matches. -/
theorem claim_C8_witness :
    (0 < ∑ k in Finset.univ, catSum [recM 0 0 3 0] k) ∧
    sumF (get_char_align_probabilites ℚ [recM 0 0 3 0]) = 1 := by
  exact ⟨by decide, (claim_C8 [recM 0 0 3 0] (by decide) (by decide)).2.2.2⟩

/-- C8 counterexample: a corpus consisting of one primary alignment with
an all-zero tally produces the empty model, whose stored probabilities
sum to 0, not to 1 within 1e-9. -/
theorem claim_C8_counterexample :
    (get_char_align_probabilites ℚ [recPrim0]).keys = ∅ ∧
    sumF (get_char_align_probabilites ℚ [recPrim0]) = 0 ∧
    ¬ |sumF (get_char_align_probabilites ℚ [recPrim0]) - 1| ≤ 1 / 1000000000 := by
  have h : sumF (get_char_align_probabilites ℚ [recPrim0]) = 0 := by decide
  refine ⟨by decide, h, ?_⟩
  rw [h]
  norm_num

theorem entryW_insertPD_self {K : Type} [LinearOrderedField K]
    (d : PyDict (ℕ × ℕ) K) (pr : ℕ × ℕ) (v : K) :
    entryW (insertPD d pr v) pr = (v : WithBot K) := by
  simp only [entryW, insertPD]
  rw [if_pos (Finset.mem_insert_self pr d.keys)]
  simp

theorem entryW_insertPD_ne {K : Type} [LinearOrderedField K]
    (d : PyDict (ℕ × ℕ) K) (pr pair : ℕ × ℕ) (v : K) (h : pair ≠ pr) :
    entryW (insertPD d pr v) pair = entryW d pair := by
  simp only [entryW, insertPD]
  rw [if_neg h]
  exact if_congr (by simp [Finset.mem_insert, h]) rfl rfl

theorem headScore_of_ne {K : Type} [LinearOrderedField K] (lg : K → K)
    (p_char : PyDict CigarOp K) (rec : AlignmentRecord) (pair : ℕ × ℕ)
    (ref : ℕ) (hr : rec.reference_name = some ref)
    (h : (rec.query_name, ref) ≠ pair) :
    headScore lg p_char rec pair = none := by
  simp only [headScore, hr]
  exact if_neg h

theorem entryW_buildStep {K : Type} [LinearOrderedField K] (lg : K → K)
    (p_char : PyDict CigarOp K) (d d2 : PyDict (ℕ × ℕ) K)
    (rec : AlignmentRecord) (h : buildStep lg p_char d rec = Except.ok d2)
    (pair : ℕ × ℕ) :
    entryW d2 pair = max (entryW d pair) (optW (headScore lg p_char rec pair)) := by
  rcases hr : rec.reference_name with _ | ref
  · simp only [buildStep, hr] at h
    cases h
    rw [headScore, hr]
    exact (max_eq_left bot_le).symm
  · rcases hv : compute_log_L_rgs lg p_char (get_align_stats rec.cigar_stats)
      with _ | v
    · simp only [buildStep, hr, hv] at h
      by_cases hp : (rec.query_name, ref) ∈ d.keys
      · rw [if_pos hp] at h
        exact absurd h (by simp)
      · rw [if_neg hp] at h
        cases h
        have hh : headScore lg p_char rec pair = none := by
          simp [headScore, hr, hv]
        rw [hh]
        exact (max_eq_left bot_le).symm
    · simp only [buildStep, hr, hv] at h
      by_cases hpair : (rec.query_name, ref) = pair
      · have hh : headScore lg p_char rec pair = some v := by
          simp only [headScore, hr]
          rw [if_pos hpair, hv]
        subst hpair
        by_cases hp : (rec.query_name, ref) ∈ d.keys
        · rw [if_pos hp] at h
          by_cases hlt : d.val (rec.query_name, ref) < v
          · rw [if_pos hlt] at h
            cases h
            rw [entryW_insertPD_self, hh, entryW, if_pos hp]
            show (v : WithBot K) = max ((d.val (rec.query_name, ref) : K) : WithBot K) (v : WithBot K)
            rw [← WithBot.coe_max, max_eq_right (le_of_lt hlt)]
          · rw [if_neg hlt] at h
            cases h
            rw [hh, entryW, if_pos hp]
            show ((d.val (rec.query_name, ref) : K) : WithBot K) =
              max ((d.val (rec.query_name, ref) : K) : WithBot K) (v : WithBot K)
            rw [← WithBot.coe_max, max_eq_left (not_lt.mp hlt)]
        · rw [if_neg hp] at h
          cases h
          rw [entryW_insertPD_self, hh, entryW, if_neg hp]
          exact (max_eq_right bot_le).symm
      · have hh : headScore lg p_char rec pair = none :=
          headScore_of_ne lg p_char rec pair ref hr hpair
        have hne : pair ≠ (rec.query_name, ref) := fun he => hpair he.symm
        by_cases hp : (rec.query_name, ref) ∈ d.keys
        · rw [if_pos hp] at h
          by_cases hlt : d.val (rec.query_name, ref) < v
          · rw [if_pos hlt] at h
            cases h
            rw [entryW_insertPD_ne d _ pair v hne, hh]
            exact (max_eq_left bot_le).symm
          · rw [if_neg hlt] at h
            cases h
            rw [hh]
            exact (max_eq_left bot_le).symm
        · rw [if_neg hp] at h
          cases h
          rw [entryW_insertPD_ne d _ pair v hne, hh]
          exact (max_eq_left bot_le).symm

theorem entryW_go {K : Type} [LinearOrderedField K] (lg : K → K)
    (p_char : PyDict CigarOp K) :
    ∀ (recs : List AlignmentRecord) (d d' : PyDict (ℕ × ℕ) K),
      log_L_rgs_go lg p_char recs d = Except.ok d' → ∀ pair,
      entryW d' pair =
        max (entryW d pair) (scorableScores lg p_char recs pair).maximum := by
  intro recs
  induction recs with
  | nil =>
    intro d d' h pair
    simp only [log_L_rgs_go] at h
    cases h
    rw [scorableScores, List.filterMap_nil, List.maximum_nil]
    exact (max_eq_left bot_le).symm
  | cons rec rest ih =>
    intro d d' h pair
    rcases hb : buildStep lg p_char d rec with e | d2
    · rw [log_L_rgs_go, hb] at h
      exact absurd h (by simp)
    · rw [log_L_rgs_go, hb] at h
      have hstep := entryW_buildStep lg p_char d d2 rec hb pair
      rw [ih d2 d' h pair, hstep, max_assoc]
      rcases hh : headScore lg p_char rec pair with _ | v
      · have hsc : scorableScores lg p_char (rec :: rest) pair =
            scorableScores lg p_char rest pair := by
          simp only [scorableScores, List.filterMap_cons, hh]
        rw [hsc, show optW (none : Option K) = ⊥ from rfl, max_eq_right bot_le]
      · have hsc : scorableScores lg p_char (rec :: rest) pair =
            v :: scorableScores lg p_char rest pair := by
          simp only [scorableScores, List.filterMap_cons, hh]
        rw [hsc, List.maximum_cons]
        rfl

/-- C3: scoring-order bug (Python 3 `TypeError`).  With a model containing
only the match category, the record `recM 0 0 5 2` is unscorable: its
substitution count 2 is positive and its category is absent from the
model.  When the unscorable record is the first one for its pair it is
dropped and the build completes, but when it follows a stored score for
the same pair the guard evaluates `d[pair] < None`, which raises
`TypeError` in Python 3 — the build fails, contradicting the claim that
the build completes regardless of where the alignment occurs. -/
theorem claim_C3 :
    isErrB (log_L_rgs_dict [recM 0 0 3 0, recM 0 0 5 2] pM lgTenth) = true ∧
    isErrB (log_L_rgs_dict [recM 0 0 5 2, recM 0 0 3 0] pM lgTenth) = false ∧
    okKeys (log_L_rgs_dict [recM 0 0 5 2, recM 0 0 3 0] pM lgTenth) = {(0, 0)} := by
  have h1 : compute_log_L_rgs lgTenth pM (get_align_stats (cigM 3 0)) =
      some (-3 / 10 : ℚ) := by
    norm_num +decide [compute_log_L_rgs, scoreOps, statsVal, get_align_stats,
      cigM, pM, lgTenth]
  have h2 : compute_log_L_rgs lgTenth pM (get_align_stats (cigM 5 2)) = none := by
    norm_num +decide [compute_log_L_rgs, scoreOps, statsVal, get_align_stats,
      cigM, pM, lgTenth]
  refine ⟨?_, ?_, ?_⟩ <;>
    norm_num +decide [log_L_rgs_dict, log_L_rgs_go, buildStep, recM, h1, h2,
      insertPD, isErrB, okKeys]

/-- C4: whenever the matrix build completes, the stored value of every
(read, reference) pair is the maximum of the scores of its scorable
records — so a strictly greater later score replaces the stored one and
an exact tie keeps the first-encountered value — and a pair none of
whose records is scorable is absent from the matrix. -/
theorem claim_C4 {K : Type} [LinearOrderedField K] (lg : K → K)
    (p_char : PyDict CigarOp K) (recs : List AlignmentRecord)
    (hok : isErrB (log_L_rgs_dict recs p_char lg) = false) :
    (∀ pair ∈ okKeys (log_L_rgs_dict recs p_char lg),
      (scorableScores lg p_char recs pair).maximum =
        ((okVal (log_L_rgs_dict recs p_char lg) pair : K) : WithBot K)) ∧
    (∀ pair, pair ∉ okKeys (log_L_rgs_dict recs p_char lg) →
      scorableScores lg p_char recs pair = []) := by
  rcases he : log_L_rgs_dict recs p_char lg with e | d
  · rw [he] at hok
    exact absurd hok (by simp [isErrB])
  · have key := entryW_go lg p_char recs ⟨∅, fun _ => 0⟩ d he
    have hbot : entryW (⟨∅, fun _ => 0⟩ : PyDict (ℕ × ℕ) K) = fun _ => ⊥ := by
      funext pair
      simp [entryW]
    constructor
    · intro pair hmem
      simp only [okKeys] at hmem
      simp only [okVal]
      have h2 := key pair
      rw [hbot, max_eq_right bot_le] at h2
      rw [← h2]
      simp [entryW, hmem]
    · intro pair hmem
      simp only [okKeys] at hmem
      have h2 := key pair
      rw [hbot, max_eq_right bot_le] at h2
      rw [entryW, if_neg hmem] at h2
      exact List.maximum_eq_bot.mp h2.symm

/-- C4 witness: two alignments of the pair (0,0) with scores
−16/5 = −3.2 and −29/10 = −2.9 retain −2.9 in the built matrix. -/
theorem claim_C4_witness :
    okVal (log_L_rgs_dict [recM 0 0 32 0, recM 0 0 29 0] pM lgTenth) (0, 0) =
      (-29 / 10 : ℚ) ∧
    (scorableScores lgTenth pM [recM 0 0 32 0, recM 0 0 29 0] (0, 0)).maximum =
      ((-29 / 10 : ℚ) : WithBot ℚ) := by
  have h32 : compute_log_L_rgs lgTenth pM (get_align_stats (cigM 32 0)) =
      some (-16 / 5 : ℚ) := by
    norm_num +decide [compute_log_L_rgs, scoreOps, statsVal, get_align_stats,
      cigM, pM, lgTenth]
  have h29 : compute_log_L_rgs lgTenth pM (get_align_stats (cigM 29 0)) =
      some (-29 / 10 : ℚ) := by
    norm_num +decide [compute_log_L_rgs, scoreOps, statsVal, get_align_stats,
      cigM, pM, lgTenth]
  have hok : isErrB (log_L_rgs_dict [recM 0 0 32 0, recM 0 0 29 0] pM lgTenth) =
      false := by
    norm_num +decide [log_L_rgs_dict, log_L_rgs_go, buildStep, recM, h32, h29,
      insertPD, isErrB]
  have hval : okVal (log_L_rgs_dict [recM 0 0 32 0, recM 0 0 29 0] pM lgTenth)
      (0, 0) = (-29 / 10 : ℚ) := by
    norm_num +decide [log_L_rgs_dict, log_L_rgs_go, buildStep, recM, h32, h29,
      insertPD, okVal]
  have hmem : (0, 0) ∈ okKeys (log_L_rgs_dict [recM 0 0 32 0, recM 0 0 29 0]
      pM lgTenth) := by
    norm_num +decide [log_L_rgs_dict, log_L_rgs_go, buildStep, recM, h32, h29,
      insertPD, okKeys]
  have h := (claim_C4 lgTenth pM [recM 0 0 32 0, recM 0 0 29 0] hok).1 (0, 0) hmem
  exact ⟨hval, by rw [h, hval]⟩

theorem mem_refsFor {E : Finset (ℕ × ℕ)} {r s : ℕ} :
    s ∈ refsFor E r ↔ (r, s) ∈ E := by
  constructor
  · intro hs
    obtain ⟨p, hp, rfl⟩ := Finset.mem_image.mp hs
    obtain ⟨hpE, hp1⟩ := Finset.mem_filter.mp hp
    rw [← hp1, Prod.mk.eta]
    exact hpE
  · intro h
    exact Finset.mem_image.mpr ⟨(r, s), Finset.mem_filter.mpr ⟨h, rfl⟩, rfl⟩

theorem mem_readsFor {E : Finset (ℕ × ℕ)} {r s : ℕ} :
    r ∈ readsFor E s ↔ (r, s) ∈ E := by
  constructor
  · intro hs
    obtain ⟨p, hp, rfl⟩ := Finset.mem_image.mp hs
    obtain ⟨hpE, hp2⟩ := Finset.mem_filter.mp hp
    rw [← hp2, Prod.mk.eta]
    exact hpE
  · intro h
    exact Finset.mem_image.mpr ⟨(r, s), Finset.mem_filter.mpr ⟨h, rfl⟩, rfl⟩

theorem mem_readsOf {E : Finset (ℕ × ℕ)} {r : ℕ} :
    r ∈ readsOf E ↔ ∃ s, (r, s) ∈ E := by
  constructor
  · intro h
    obtain ⟨p, hp, rfl⟩ := Finset.mem_image.mp h
    exact ⟨p.2, by rwa [Prod.mk.eta]⟩
  · rintro ⟨s, hs⟩
    exact Finset.mem_image.mpr ⟨(r, s), hs, rfl⟩

theorem mem_refsOf {E : Finset (ℕ × ℕ)} {s : ℕ} :
    s ∈ refsOf E ↔ ∃ r, (r, s) ∈ E := by
  constructor
  · intro h
    obtain ⟨p, hp, rfl⟩ := Finset.mem_image.mp h
    exact ⟨p.1, by rwa [Prod.mk.eta]⟩
  · rintro ⟨r, hs⟩
    exact Finset.mem_image.mpr ⟨(r, s), hs, rfl⟩

theorem refsFor_subset_refsOf {E : Finset (ℕ × ℕ)} {r : ℕ} :
    refsFor E r ⊆ refsOf E := by
  intro s hs
  exact mem_refsOf.mpr ⟨r, mem_refsFor.mp hs⟩

theorem sum_pairs_snd (E : Finset (ℕ × ℕ)) (g : ℕ → ℕ → ℝ) :
    ∑ p in E, g p.1 p.2 = ∑ s in refsOf E, ∑ r in readsFor E s, g r s := by
  rw [← Finset.sum_fiberwise_of_maps_to
    (fun p hp => Finset.mem_image_of_mem Prod.snd hp) (fun p => g p.1 p.2)]
  refine Finset.sum_congr rfl (fun s _ => ?_)
  rw [readsFor, Finset.sum_image (fun p hp p2 hp2 hfst =>
    Prod.ext hfst ((Finset.mem_filter.mp hp).2.trans
      (Finset.mem_filter.mp hp2).2.symm))]
  exact Finset.sum_congr rfl (fun p hp => by rw [(Finset.mem_filter.mp hp).2])

theorem sum_pairs_fst (E : Finset (ℕ × ℕ)) (g : ℕ → ℕ → ℝ) :
    ∑ p in E, g p.1 p.2 = ∑ r in readsOf E, ∑ s in refsFor E r, g r s := by
  rw [← Finset.sum_fiberwise_of_maps_to
    (fun p hp => Finset.mem_image_of_mem Prod.fst hp) (fun p => g p.1 p.2)]
  refine Finset.sum_congr rfl (fun r _ => ?_)
  rw [refsFor, Finset.sum_image (fun p hp p2 hp2 hsnd =>
    Prod.ext ((Finset.mem_filter.mp hp).2.trans
      (Finset.mem_filter.mp hp2).2.symm) hsnd)]
  exact Finset.sum_congr rfl (fun p hp => by rw [(Finset.mem_filter.mp hp).2])

theorem refsOf_activeE_subset (L : PyDict (ℕ × ℕ) ℝ) (db : Finset ℕ) :
    refsOf (activeE L db) ⊆ db := by
  intro s hs
  obtain ⟨r, hr⟩ := mem_refsOf.mp hs
  exact (Finset.mem_filter.mp hr).2

theorem good_init (L : PyDict (ℕ × ℕ) ℝ) (db : Finset ℕ) (hdb : db.Nonempty) :
    Good L db (initF db) := by
  have hcard : (0 : ℝ) < (db.card : ℝ) := by
    exact_mod_cast Finset.card_pos.mpr hdb
  have hval : (0 : ℝ) < 1 / (db.card : ℝ) := by positivity
  refine ⟨?_, ?_, ?_⟩
  · rw [activeP, activeE]
    refine Finset.filter_congr (fun p _ => ?_)
    simp only [initF]
    constructor
    · rintro ⟨h1, _⟩
      exact h1
    · intro h1
      exact ⟨h1, ne_of_gt hval⟩
  · intro s _
    exact hval
  · calc ∑ s in refsOf (activeE L db), (initF db : PyDict ℕ ℝ).val s
        = ∑ _s in refsOf (activeE L db), 1 / (db.card : ℝ) :=
          Finset.sum_congr rfl (fun s _ => rfl)
      _ = ((refsOf (activeE L db)).card : ℝ) * (1 / (db.card : ℝ)) := by
          rw [Finset.sum_const, nsmul_eq_mul]
      _ ≤ 1 := by
          rw [mul_one_div, div_le_one hcard]
          exact_mod_cast Finset.card_le_card (refsOf_activeE_subset L db)

theorem Aval_pos (L : PyDict (ℕ × ℕ) ℝ) (db : Finset ℕ) (f : PyDict ℕ ℝ)
    (hpos : ∀ s ∈ refsOf (activeE L db), 0 < f.val s) (r : ℕ)
    (hr : r ∈ readsOf (activeE L db)) : 0 < Aval L db f r := by
  rw [Aval]
  obtain ⟨s, hs⟩ := mem_readsOf.mp hr
  refine Finset.sum_pos (fun s2 hs2 => ?_) ⟨s, mem_refsFor.mpr hs⟩
  exact mul_pos (Real.exp_pos _) (hpos s2 (refsFor_subset_refsOf hs2))

theorem WrF_eq (L : PyDict (ℕ × ℕ) ℝ) (db : Finset ℕ) (f : PyDict ℕ ℝ) (r : ℕ)
    (hpos : ∀ s ∈ refsOf (activeE L db), 0 < f.val s) :
    WrF Real.exp Real.log L (activeE L db) f r =
      Real.exp (logcF Real.log L (activeE L db) f r) * Aval L db f r := by
  rw [WrF, Aval, Finset.mul_sum]
  refine Finset.sum_congr rfl (fun s hs => ?_)
  rw [wgtF, Real.exp_add, jscF, Real.exp_add, expL,
    Real.exp_log (hpos s (refsFor_subset_refsOf hs))]
  ring

theorem resp_eq (L : PyDict (ℕ × ℕ) ℝ) (db : Finset ℕ) (f : PyDict ℕ ℝ)
    (hpos : ∀ s ∈ refsOf (activeE L db), 0 < f.val s) (r s : ℕ)
    (hrs : (r, s) ∈ activeE L db) :
    wgtF Real.exp Real.log L (activeE L db) f r s /
      WrF Real.exp Real.log L (activeE L db) f r =
      expL L (r, s) * f.val s / Aval L db f r := by
  rw [WrF_eq L db f r hpos, wgtF, Real.exp_add, jscF, Real.exp_add, expL,
    Real.exp_log (hpos s (refsFor_subset_refsOf (mem_refsFor.mpr hrs))),
    mul_comm (Real.exp (logcF Real.log L (activeE L db) f r)) (Aval L db f r)]
  exact mul_div_mul_right _ _ (Real.exp_ne_zero _)

theorem sum_resp_one (L : PyDict (ℕ × ℕ) ℝ) (db : Finset ℕ) (f : PyDict ℕ ℝ)
    (hpos : ∀ s ∈ refsOf (activeE L db), 0 < f.val s) (r : ℕ)
    (hr : r ∈ readsOf (activeE L db)) :
    ∑ s in refsFor (activeE L db) r, expL L (r, s) * f.val s / Aval L db f r = 1 := by
  rw [← Finset.sum_div]
  rw [show ∑ s in refsFor (activeE L db) r, expL L (r, s) * f.val s =
    Aval L db f r from rfl]
  exact div_self (ne_of_gt (Aval_pos L db f hpos r hr))

theorem updF_keys (L : PyDict (ℕ × ℕ) ℝ) (f : PyDict ℕ ℝ)
    (hE : activeP L f = activeE L db) :
    (updF Real.exp Real.log L f).keys = refsOf (activeE L db) := by
  simp only [updF, hE]

theorem updF_val (L : PyDict (ℕ × ℕ) ℝ) (db : Finset ℕ) (f : PyDict ℕ ℝ)
    (hE : activeP L f = activeE L db)
    (hpos : ∀ s ∈ refsOf (activeE L db), 0 < f.val s) (s : ℕ) :
    (updF Real.exp Real.log L f).val s =
      (∑ r in readsFor (activeE L db) s, expL L (r, s) * f.val s / Aval L db f r) /
        ((readsOf (activeE L db)).card : ℝ) := by
  simp only [updF, hE]
  congr 1
  exact Finset.sum_congr rfl
    (fun r hr => resp_eq L db f hpos r s (mem_readsFor.mp hr))

theorem sumF_updF (L : PyDict (ℕ × ℕ) ℝ) (db : Finset ℕ) (f : PyDict ℕ ℝ)
    (hE : activeP L f = activeE L db)
    (hpos : ∀ s ∈ refsOf (activeE L db), 0 < f.val s)
    (hne : (activeE L db).Nonempty) :
    sumF (updF Real.exp Real.log L f) = 1 := by
  rw [sumF, updF_keys L f hE]
  rw [Finset.sum_congr rfl (fun s _ => updF_val L db f hE hpos s)]
  rw [← Finset.sum_div]
  rw [← sum_pairs_snd (activeE L db)
    (fun r s => expL L (r, s) * f.val s / Aval L db f r)]
  rw [sum_pairs_fst (activeE L db)
    (fun r s => expL L (r, s) * f.val s / Aval L db f r)]
  rw [Finset.sum_congr rfl (fun r hr => sum_resp_one L db f hpos r hr)]
  rw [Finset.sum_const, nsmul_eq_mul, mul_one]
  have hnr : (readsOf (activeE L db)).Nonempty := hne.image Prod.fst
  exact div_self (ne_of_gt (by exact_mod_cast Finset.card_pos.mpr hnr))

theorem updF_pos (L : PyDict (ℕ × ℕ) ℝ) (db : Finset ℕ) (f : PyDict ℕ ℝ)
    (hE : activeP L f = activeE L db)
    (hpos : ∀ s ∈ refsOf (activeE L db), 0 < f.val s)
    (hne : (activeE L db).Nonempty) :
    ∀ s ∈ refsOf (activeE L db), 0 < (updF Real.exp Real.log L f).val s := by
  intro s hs
  rw [updF_val L db f hE hpos s]
  obtain ⟨r, hr⟩ := mem_refsOf.mp hs
  have hnr : (readsOf (activeE L db)).Nonempty := hne.image Prod.fst
  refine div_pos (Finset.sum_pos (fun r2 hr2 => ?_) ⟨r, mem_readsFor.mpr hr⟩) ?_
  · refine div_pos (mul_pos (Real.exp_pos _) (hpos s hs)) ?_
    exact Aval_pos L db f hpos r2 (mem_readsOf.mpr ⟨s, mem_readsFor.mp hr2⟩)
  · exact_mod_cast Finset.card_pos.mpr hnr

theorem active_updF (L : PyDict (ℕ × ℕ) ℝ) (db : Finset ℕ) (f : PyDict ℕ ℝ)
    (hE : activeP L f = activeE L db)
    (hpos : ∀ s ∈ refsOf (activeE L db), 0 < f.val s)
    (hne : (activeE L db).Nonempty) :
    activeP L (updF Real.exp Real.log L f) = activeE L db := by
  have hpos2 := updF_pos L db f hE hpos hne
  rw [activeP, activeE]
  refine Finset.filter_congr (fun p hp => ?_)
  rw [updF_keys L f hE]
  constructor
  · rintro ⟨h1, _⟩
    exact refsOf_activeE_subset L db h1
  · intro h1
    have hmem : p.2 ∈ refsOf (activeE L db) := by
      refine mem_refsOf.mpr ⟨p.1, ?_⟩
      rw [Prod.mk.eta]
      exact Finset.mem_filter.mpr ⟨hp, h1⟩
    exact ⟨hmem, ne_of_gt (hpos2 p.2 hmem)⟩

theorem good_updF (L : PyDict (ℕ × ℕ) ℝ) (db : Finset ℕ) (f : PyDict ℕ ℝ)
    (hGood : Good L db f) (hne : (activeE L db).Nonempty) :
    Good L db (updF Real.exp Real.log L f) := by
  obtain ⟨hE, hpos, _⟩ := hGood
  refine ⟨active_updF L db f hE hpos hne, updF_pos L db f hE hpos hne, ?_⟩
  have := sumF_updF L db f hE hpos hne
  rw [sumF, updF_keys L f hE] at this
  rw [this]

theorem totalLL_eq (L : PyDict (ℕ × ℕ) ℝ) (db : Finset ℕ) (f : PyDict ℕ ℝ)
    (hE : activeP L f = activeE L db)
    (hpos : ∀ s ∈ refsOf (activeE L db), 0 < f.val s) :
    totalLL Real.exp Real.log L f =
      ∑ r in readsOf (activeE L db), Real.log (Aval L db f r) := by
  simp only [totalLL, hE]
  refine Finset.sum_congr rfl (fun r hr => ?_)
  rw [WrF_eq L db f r hpos,
    Real.log_mul (Real.exp_ne_zero _) (ne_of_gt (Aval_pos L db f hpos r hr)),
    Real.log_exp]
  ring

theorem jensen_log (S : Finset ℕ) (w x : ℕ → ℝ) (hw : ∀ i ∈ S, 0 < w i)
    (hx : ∀ i ∈ S, 0 < x i) (hw1 : ∑ i in S, w i = 1) :
    ∑ i in S, w i * Real.log (x i) ≤ Real.log (∑ i in S, w i * x i) := by
  set T := ∑ i in S, w i * x i with hTdef
  have hS : S.Nonempty := by
    rcases S.eq_empty_or_nonempty with h | h
    · rw [h, Finset.sum_empty] at hw1
      norm_num at hw1
    · exact h
  have hT : 0 < T :=
    Finset.sum_pos (fun i hi => mul_pos (hw i hi) (hx i hi)) hS
  have key : ∀ i ∈ S, w i * Real.log (x i) - w i * Real.log T ≤
      w i * (x i / T) - w i := by
    intro i hi
    have h1 : Real.log (x i) - Real.log T = Real.log (x i / T) :=
      (Real.log_div (ne_of_gt (hx i hi)) (ne_of_gt hT)).symm
    have h2 : Real.log (x i / T) ≤ x i / T - 1 :=
      Real.log_le_sub_one_of_pos (div_pos (hx i hi) hT)
    calc w i * Real.log (x i) - w i * Real.log T
        = w i * (Real.log (x i) - Real.log T) := by ring
      _ = w i * Real.log (x i / T) := by rw [h1]
      _ ≤ w i * (x i / T - 1) :=
          mul_le_mul_of_nonneg_left h2 (le_of_lt (hw i hi))
      _ = w i * (x i / T) - w i := by ring
  have hsum := Finset.sum_le_sum key
  rw [Finset.sum_sub_distrib, Finset.sum_sub_distrib, ← Finset.sum_mul, hw1,
    one_mul] at hsum
  have hdiv : ∑ i in S, w i * (x i / T) = 1 := by
    rw [Finset.sum_congr rfl (fun i _ => (mul_div_assoc (w i) (x i) T).symm),
      ← Finset.sum_div]
    exact div_self (ne_of_gt hT)
  rw [hdiv] at hsum
  linarith

theorem gibbs_ineq (S : Finset ℕ) (p q : ℕ → ℝ) (hp : ∀ i ∈ S, 0 < p i)
    (hq : ∀ i ∈ S, 0 < q i) (hq1 : ∑ i in S, q i = 1)
    (hp1 : ∑ i in S, p i ≤ 1) :
    0 ≤ ∑ i in S, q i * (Real.log (q i) - Real.log (p i)) := by
  have key : ∀ i ∈ S, q i * (Real.log (p i) - Real.log (q i)) ≤ p i - q i := by
    intro i hi
    have h1 : Real.log (p i) - Real.log (q i) = Real.log (p i / q i) :=
      (Real.log_div (ne_of_gt (hp i hi)) (ne_of_gt (hq i hi))).symm
    have h2 : Real.log (p i / q i) ≤ p i / q i - 1 :=
      Real.log_le_sub_one_of_pos (div_pos (hp i hi) (hq i hi))
    have h3 : q i * (p i / q i) = p i := by
      rw [mul_comm, div_mul_cancel₀ _ (ne_of_gt (hq i hi))]
    calc q i * (Real.log (p i) - Real.log (q i))
        = q i * Real.log (p i / q i) := by rw [h1]
      _ ≤ q i * (p i / q i - 1) :=
          mul_le_mul_of_nonneg_left h2 (le_of_lt (hq i hi))
      _ = q i * (p i / q i) - q i := by ring
      _ = p i - q i := by rw [h3]
  have hsum := Finset.sum_le_sum key
  rw [Finset.sum_sub_distrib, hq1] at hsum
  have h4 : ∑ i in S, q i * (Real.log (q i) - Real.log (p i)) =
      -∑ i in S, q i * (Real.log (p i) - Real.log (q i)) := by
    rw [← Finset.sum_neg_distrib]
    exact Finset.sum_congr rfl (fun i _ => by ring)
  rw [h4]
  linarith

theorem log_Aval_step (L : PyDict (ℕ × ℕ) ℝ) (db : Finset ℕ) (f : PyDict ℕ ℝ)
    (hGood : Good L db f) (hne : (activeE L db).Nonempty) (r : ℕ)
    (hr : r ∈ readsOf (activeE L db)) :
    ∑ s in refsFor (activeE L db) r,
      expL L (r, s) * f.val s / Aval L db f r *
        (Real.log ((updF Real.exp Real.log L f).val s) - Real.log (f.val s)) ≤
      Real.log (Aval L db (updF Real.exp Real.log L f) r) -
        Real.log (Aval L db f r) := by
  obtain ⟨hE, hpos, _⟩ := hGood
  have hpos2 := updF_pos L db f hE hpos hne
  have hAr := Aval_pos L db f hpos r hr
  have hAr2 := Aval_pos L db (updF Real.exp Real.log L f) hpos2 r hr
  have hw : ∀ s ∈ refsFor (activeE L db) r,
      0 < expL L (r, s) * f.val s / Aval L db f r := by
    intro s hs
    exact div_pos (mul_pos (Real.exp_pos _)
      (hpos s (refsFor_subset_refsOf hs))) hAr
  have hx : ∀ s ∈ refsFor (activeE L db) r,
      0 < (updF Real.exp Real.log L f).val s / f.val s := by
    intro s hs
    exact div_pos (hpos2 s (refsFor_subset_refsOf hs))
      (hpos s (refsFor_subset_refsOf hs))
  have hj := jensen_log (refsFor (activeE L db) r)
    (fun s => expL L (r, s) * f.val s / Aval L db f r)
    (fun s => (updF Real.exp Real.log L f).val s / f.val s)
    hw hx (sum_resp_one L db f hpos r hr)
  have hwx : ∑ s in refsFor (activeE L db) r,
      expL L (r, s) * f.val s / Aval L db f r *
        ((updF Real.exp Real.log L f).val s / f.val s) =
      Aval L db (updF Real.exp Real.log L f) r / Aval L db f r := by
    rw [Finset.sum_congr rfl (fun s hs => ?_), ← Finset.sum_div]
    · rw [show ∑ s in refsFor (activeE L db) r,
        expL L (r, s) * (updF Real.exp Real.log L f).val s =
        Aval L db (updF Real.exp Real.log L f) r from rfl]
    · show expL L (r, s) * f.val s / Aval L db f r *
        ((updF Real.exp Real.log L f).val s / f.val s) =
        expL L (r, s) * (updF Real.exp Real.log L f).val s / Aval L db f r
      have hfs : f.val s ≠ 0 := ne_of_gt (hpos s (refsFor_subset_refsOf hs))
      field_simp
      ring
  have hlogwx : Real.log (∑ s in refsFor (activeE L db) r,
      expL L (r, s) * f.val s / Aval L db f r *
        ((updF Real.exp Real.log L f).val s / f.val s)) =
      Real.log (Aval L db (updF Real.exp Real.log L f) r) -
        Real.log (Aval L db f r) := by
    rw [hwx, Real.log_div (ne_of_gt hAr2) (ne_of_gt hAr)]
  have hlogs : ∀ s ∈ refsFor (activeE L db) r,
      expL L (r, s) * f.val s / Aval L db f r *
        Real.log ((updF Real.exp Real.log L f).val s / f.val s) =
      expL L (r, s) * f.val s / Aval L db f r *
        (Real.log ((updF Real.exp Real.log L f).val s) - Real.log (f.val s)) := by
    intro s hs
    rw [Real.log_div (ne_of_gt (hpos2 s (refsFor_subset_refsOf hs)))
      (ne_of_gt (hpos s (refsFor_subset_refsOf hs)))]
  rw [← hlogwx]
  calc ∑ s in refsFor (activeE L db) r,
      expL L (r, s) * f.val s / Aval L db f r *
        (Real.log ((updF Real.exp Real.log L f).val s) - Real.log (f.val s))
      = ∑ s in refsFor (activeE L db) r,
        expL L (r, s) * f.val s / Aval L db f r *
          Real.log ((updF Real.exp Real.log L f).val s / f.val s) :=
        Finset.sum_congr rfl (fun s hs => (hlogs s hs).symm)
    _ ≤ Real.log (∑ s in refsFor (activeE L db) r,
        expL L (r, s) * f.val s / Aval L db f r *
          ((updF Real.exp Real.log L f).val s / f.val s)) := hj

theorem totalLL_mono (L : PyDict (ℕ × ℕ) ℝ) (db : Finset ℕ) (f : PyDict ℕ ℝ)
    (hGood : Good L db f) (hne : (activeE L db).Nonempty) :
    totalLL Real.exp Real.log L f ≤
      totalLL Real.exp Real.log L (updF Real.exp Real.log L f) := by
  obtain ⟨hE, hpos, hsumle⟩ := hGood
  have hGood2 := good_updF L db f ⟨hE, hpos, hsumle⟩ hne
  obtain ⟨hE2, hpos2, _⟩ := hGood2
  have hnr : (readsOf (activeE L db)).Nonempty := hne.image Prod.fst
  have hcard : ((readsOf (activeE L db)).card : ℝ) ≠ 0 :=
    ne_of_gt (by exact_mod_cast Finset.card_pos.mpr hnr)
  rw [totalLL_eq L db f hE hpos, totalLL_eq L db _ hE2 hpos2,
    ← sub_nonneg, ← Finset.sum_sub_distrib]
  have hstep : ∀ r ∈ readsOf (activeE L db),
      ∑ s in refsFor (activeE L db) r,
        expL L (r, s) * f.val s / Aval L db f r *
          (Real.log ((updF Real.exp Real.log L f).val s) - Real.log (f.val s)) ≤
      Real.log (Aval L db (updF Real.exp Real.log L f) r) -
        Real.log (Aval L db f r) :=
    fun r hr => log_Aval_step L db f ⟨hE, hpos, hsumle⟩ hne r hr
  refine le_trans ?_ (Finset.sum_le_sum hstep)
  rw [← sum_pairs_fst (activeE L db) (fun r s =>
    expL L (r, s) * f.val s / Aval L db f r *
      (Real.log ((updF Real.exp Real.log L f).val s) - Real.log (f.val s)))]
  rw [sum_pairs_snd (activeE L db) (fun r s =>
    expL L (r, s) * f.val s / Aval L db f r *
      (Real.log ((updF Real.exp Real.log L f).val s) - Real.log (f.val s)))]
  have hinner : ∀ s ∈ refsOf (activeE L db),
      ∑ r in readsFor (activeE L db) s,
        expL L (r, s) * f.val s / Aval L db f r *
          (Real.log ((updF Real.exp Real.log L f).val s) - Real.log (f.val s)) =
      ((readsOf (activeE L db)).card : ℝ) * (updF Real.exp Real.log L f).val s *
        (Real.log ((updF Real.exp Real.log L f).val s) - Real.log (f.val s)) := by
    intro s _
    rw [← Finset.sum_mul]
    congr 1
    rw [updF_val L db f hE hpos s, ← mul_div_assoc,
      mul_div_cancel_left₀ _ hcard]
  rw [Finset.sum_congr rfl hinner]
  have hassoc : ∑ s in refsOf (activeE L db),
      ((readsOf (activeE L db)).card : ℝ) * (updF Real.exp Real.log L f).val s *
        (Real.log ((updF Real.exp Real.log L f).val s) - Real.log (f.val s)) =
      ((readsOf (activeE L db)).card : ℝ) *
        ∑ s in refsOf (activeE L db), (updF Real.exp Real.log L f).val s *
          (Real.log ((updF Real.exp Real.log L f).val s) - Real.log (f.val s)) := by
    rw [Finset.mul_sum]
    exact Finset.sum_congr rfl (fun s _ => mul_assoc _ _ _)
  rw [hassoc]
  refine mul_nonneg (by positivity) ?_
  refine gibbs_ineq (refsOf (activeE L db)) f.val
    (updF Real.exp Real.log L f).val hpos hpos2 ?_ hsumle
  have := sumF_updF L db f hE hpos hne
  rw [sumF, updF_keys L f hE] at this
  exact this

theorem EMloop_degenerate (L : PyDict (ℕ × ℕ) ℝ) (f : PyDict ℕ ℝ)
    (hap : activeP L f = ∅) (fuel : ℕ) (prev : Option ℝ) :
    EMloop Real.exp Real.log L (fuel + 1) f prev = some EMoutcome.massFailure := by
  have hs : sumF (updF Real.exp Real.log L f) = 0 := by
    have hk : (updF Real.exp Real.log L f).keys = ∅ := by
      simp only [updF, hap, refsOf, Finset.image_empty]
    rw [sumF, hk, Finset.sum_empty]
  simp only [EMloop]
  rw [hs]
  rw [if_pos (by norm_num)]

theorem massNever (L : PyDict (ℕ × ℕ) ℝ) (db : Finset ℕ)
    (hne : (activeE L db).Nonempty) :
    ∀ fuel (f : PyDict ℕ ℝ) prev, Good L db f →
      EMloop Real.exp Real.log L fuel f prev ≠ some EMoutcome.massFailure := by
  intro fuel
  induction fuel with
  | zero =>
    intro f prev _ h
    rw [EMloop] at h
    exact Option.noConfusion h
  | succ n ih =>
    intro f prev hGood h
    have hP : (999 / 1000 : ℝ) ≤ sumF (updF Real.exp Real.log L f) ∧
        sumF (updF Real.exp Real.log L f) ≤ 10001 / 10000 := by
      rw [sumF_updF L db f hGood.1 hGood.2.1 hne]
      norm_num
    rcases prev with _ | p
    · simp only [EMloop] at h
      rw [if_neg (not_not_intro hP)] at h
      exact ih _ _ (good_updF L db f hGood hne) h
    · simp only [EMloop] at h
      rw [if_neg (not_not_intro hP)] at h
      by_cases h1 : totalLL Real.exp Real.log L f - p < 0
      · rw [if_pos h1] at h
        exact EMoutcome.noConfusion (Option.some.inj h)
      · rw [if_neg h1] at h
        by_cases h2 : totalLL Real.exp Real.log L f - p < 1 / 100
        · rw [if_pos h2] at h
          exact EMoutcome.noConfusion (Option.some.inj h)
        · rw [if_neg h2] at h
          exact ih _ _ (good_updF L db f hGood hne) h

theorem monoNever (L : PyDict (ℕ × ℕ) ℝ) (db : Finset ℕ)
    (hne : (activeE L db).Nonempty) :
    ∀ fuel (f : PyDict ℕ ℝ) prev, Good L db f →
      (prev = none ∨ ∃ g, Good L db g ∧ f = updF Real.exp Real.log L g ∧
        prev = some (totalLL Real.exp Real.log L g)) →
      EMloop Real.exp Real.log L fuel f prev ≠ some EMoutcome.monoFailure := by
  intro fuel
  induction fuel with
  | zero =>
    intro f prev _ _ h
    rw [EMloop] at h
    exact Option.noConfusion h
  | succ n ih =>
    intro f prev hGood hPrev h
    have hP : (999 / 1000 : ℝ) ≤ sumF (updF Real.exp Real.log L f) ∧
        sumF (updF Real.exp Real.log L f) ≤ 10001 / 10000 := by
      rw [sumF_updF L db f hGood.1 hGood.2.1 hne]
      norm_num
    rcases hPrev with rfl | ⟨g, hg, rfl, rfl⟩
    · simp only [EMloop] at h
      rw [if_neg (not_not_intro hP)] at h
      exact ih _ _ (good_updF L db f hGood hne)
        (Or.inr ⟨f, hGood, rfl, rfl⟩) h
    · simp only [EMloop] at h
      rw [if_neg (not_not_intro hP)] at h
      have hmono : ¬ (totalLL Real.exp Real.log L (updF Real.exp Real.log L g) -
          totalLL Real.exp Real.log L g < 0) := by
        rw [not_lt, sub_nonneg]
        exact totalLL_mono L db g hg hne
      rw [if_neg hmono] at h
      by_cases h2 : totalLL Real.exp Real.log L (updF Real.exp Real.log L g) -
          totalLL Real.exp Real.log L g < 1 / 100
      · rw [if_pos h2] at h
        exact EMoutcome.noConfusion (Option.some.inj h)
      · rw [if_neg h2] at h
        exact ih _ _ (good_updF L db _ hGood hne)
          (Or.inr ⟨updF Real.exp Real.log L g, hGood, rfl, rfl⟩) h

theorem successShape (L : PyDict (ℕ × ℕ) ℝ) (db : Finset ℕ)
    (hne : (activeE L db).Nonempty) :
    ∀ fuel (f : PyDict ℕ ℝ) prev (g : PyDict ℕ ℝ), Good L db f →
      EMloop Real.exp Real.log L fuel f prev = some (EMoutcome.success g) →
      g.keys = refsOf (activeE L db) ∧ ∀ s ∈ g.keys, 0 < g.val s := by
  intro fuel
  induction fuel with
  | zero =>
    intro f prev g _ h
    rw [EMloop] at h
    exact Option.noConfusion h
  | succ n ih =>
    intro f prev g hGood h
    have hP : (999 / 1000 : ℝ) ≤ sumF (updF Real.exp Real.log L f) ∧
        sumF (updF Real.exp Real.log L f) ≤ 10001 / 10000 := by
      rw [sumF_updF L db f hGood.1 hGood.2.1 hne]
      norm_num
    rcases prev with _ | p
    · simp only [EMloop] at h
      rw [if_neg (not_not_intro hP)] at h
      exact ih _ _ _ (good_updF L db f hGood hne) h
    · simp only [EMloop] at h
      rw [if_neg (not_not_intro hP)] at h
      by_cases h1 : totalLL Real.exp Real.log L f - p < 0
      · rw [if_pos h1] at h
        exact EMoutcome.noConfusion (Option.some.inj h)
      · rw [if_neg h1] at h
        by_cases h2 : totalLL Real.exp Real.log L f - p < 1 / 100
        · rw [if_pos h2] at h
          have hg : updF Real.exp Real.log L f = g :=
            EMoutcome.success.inj (Option.some.inj h)
          have hGood2 := good_updF L db f hGood hne
          refine ⟨?_, fun s hs => ?_⟩
          · rw [← hg]
            exact updF_keys L f hGood.1
          · rw [← hg] at hs ⊢
            rw [updF_keys L f hGood.1] at hs
            exact hGood2.2.1 s hs
        · rw [if_neg h2] at h
          exact ih _ _ _ (good_updF L db f hGood hne) h

theorem activeP_init_of_degenerate (L : PyDict (ℕ × ℕ) ℝ) (db : Finset ℕ)
    (hE : activeE L db = ∅) : activeP L (initF db : PyDict ℕ ℝ) = ∅ := by
  refine Finset.eq_empty_of_forall_not_mem (fun p hp => ?_)
  obtain ⟨h1, h2⟩ := Finset.mem_filter.mp hp
  have hmem : p ∈ activeE L db := Finset.mem_filter.mpr ⟨h1, h2.1⟩
  rw [hE] at hmem
  exact Finset.not_mem_empty p hmem

theorem EMloop_one_no_success (L : PyDict (ℕ × ℕ) ℝ) (f g : PyDict ℕ ℝ) :
    EMloop Real.exp Real.log L 1 f none ≠ some (EMoutcome.success g) := by
  intro h
  rw [show (1 : ℕ) = 0 + 1 from rfl] at h
  simp only [EMloop] at h
  by_cases hc : ¬ ((999 / 1000 : ℝ) ≤ sumF (updF Real.exp Real.log L f) ∧
      sumF (updF Real.exp Real.log L f) ≤ 10001 / 10000)
  · rw [if_pos hc] at h
    exact EMoutcome.noConfusion (Option.some.inj h)
  · rw [if_neg hc] at h
    exact Option.noConfusion h

/-- C1: for every EM run whose likelihood matrix has at least one entry
whose reference belongs to the database universe, the abundance dict
produced by every update step sums to exactly 1 in exact arithmetic
(second conjunct, for every abundance dict reachable along a run, i.e.
satisfying the `Good` invariant), so the abundance-mass failure branch is
never taken (first conjunct), for any number of iterations. -/
theorem claim_C1 (L : PyDict (ℕ × ℕ) ℝ) (db : Finset ℕ)
    (h : ∃ p ∈ L.keys, p.2 ∈ db) :
    (∀ fuel, EM_iterations Real.exp Real.log fuel L db ≠
      some EMoutcome.massFailure) ∧
    (∀ g, Good L db g → sumF (updF Real.exp Real.log L g) = 1) := by
  obtain ⟨p, hpk, hpd⟩ := h
  have hne : (activeE L db).Nonempty := ⟨p, Finset.mem_filter.mpr ⟨hpk, hpd⟩⟩
  have hdb : db.Nonempty := ⟨p.2, hpd⟩
  constructor
  · intro fuel
    exact massNever L db hne fuel (initF db) none (good_init L db hdb)
  · intro g hg
    exact sumF_updF L db g hg.1 hg.2.1 hne

/-- C1 witness: the invariant applied to the one-entry matrix `L0` with
database `{0}`. -/
theorem claim_C1_witness :
    (∃ p ∈ L0.keys, p.2 ∈ ({0} : Finset ℕ)) ∧
    EM_iterations Real.exp Real.log 7 L0 {0} ≠ some EMoutcome.massFailure := by
  have h : ∃ p ∈ L0.keys, p.2 ∈ ({0} : Finset ℕ) := by decide
  exact ⟨h, (claim_C1 L0 {0} h).1 7⟩

/-- C2: in exact arithmetic the total log-likelihood objective is
non-decreasing between consecutive EM iterations (the EM monotonicity
theorem, by Jensen's and Gibbs' inequalities), so the monotonicity
failure branch is never taken, for any input matrix, database and number
of iterations.  On degenerate inputs with no active entry the first
iteration aborts through the abundance-mass branch instead, before the
monotonicity check is ever reached. -/
theorem claim_C2 (L : PyDict (ℕ × ℕ) ℝ) (db : Finset ℕ) (fuel : ℕ) :
    EM_iterations Real.exp Real.log fuel L db ≠ some EMoutcome.monoFailure := by
  rcases (activeE L db).eq_empty_or_nonempty with hE | hne
  · have hap := activeP_init_of_degenerate L db hE
    cases fuel with
    | zero =>
      rw [EM_iterations, EMloop]
      exact fun h => Option.noConfusion h
    | succ n =>
      rw [EM_iterations, EMloop_degenerate L (initF db) hap n none]
      exact fun h => EMoutcome.noConfusion (Option.some.inj h)
  · have hdb : db.Nonempty := by
      obtain ⟨p, hp⟩ := hne
      exact ⟨p.2, (Finset.mem_filter.mp hp).2⟩
    exact monoNever L db hne fuel (initF db) none (good_init L db hdb)
      (Or.inl rfl)

/-- C10: whenever an EM run returns a converged abundance dict, its key set
is exactly the set of references that appear in at least one matrix
entry and belong to the database universe, with strictly positive values
(no reference is present with value 0); moreover a run with fuel for a
single iteration never returns, because the first iteration's
improvement over the initial `-inf` objective never passes the
convergence test. -/
theorem claim_C10 (L : PyDict (ℕ × ℕ) ℝ) (db : Finset ℕ) (fuel : ℕ)
    (h : emReturns (EM_iterations Real.exp Real.log fuel L db)) :
    outKeys (EM_iterations Real.exp Real.log fuel L db) =
      (L.keys.filter (fun p => p.2 ∈ db)).image Prod.snd ∧
    (∀ s ∈ outKeys (EM_iterations Real.exp Real.log fuel L db),
      0 < outVal (EM_iterations Real.exp Real.log fuel L db) s) ∧
    ¬ emReturns (EM_iterations Real.exp Real.log 1 L db) := by
  have hsucc : ∃ g, EM_iterations Real.exp Real.log fuel L db =
      some (EMoutcome.success g) := by
    rcases ho : EM_iterations Real.exp Real.log fuel L db with _ | o
    · rw [ho] at h
      exact absurd h (by simp [emReturns])
    · cases o with
      | success g => exact ⟨g, rfl⟩
      | massFailure =>
        rw [ho] at h
        exact absurd h (by simp [emReturns])
      | monoFailure =>
        rw [ho] at h
        exact absurd h (by simp [emReturns])
  obtain ⟨g, hg⟩ := hsucc
  rcases (activeE L db).eq_empty_or_nonempty with hE | hne
  · exfalso
    have hap := activeP_init_of_degenerate L db hE
    cases fuel with
    | zero =>
      rw [EM_iterations, EMloop] at hg
      exact Option.noConfusion hg
    | succ n =>
      rw [EM_iterations, EMloop_degenerate L (initF db) hap n none] at hg
      exact EMoutcome.noConfusion (Option.some.inj hg)
  · have hdb : db.Nonempty := by
      obtain ⟨p, hp⟩ := hne
      exact ⟨p.2, (Finset.mem_filter.mp hp).2⟩
    have hshape := successShape L db hne fuel (initF db) none g
      (good_init L db hdb) hg
    refine ⟨?_, ?_, ?_⟩
    · rw [hg]
      simp only [outKeys]
      rw [hshape.1]
      rfl
    · intro s hs
      rw [hg] at hs ⊢
      simp only [outKeys] at hs
      simp only [outVal]
      exact hshape.2 s hs
    · intro hret
      have hsucc2 : ∃ g2, EM_iterations Real.exp Real.log 1 L db =
          some (EMoutcome.success g2) := by
        rcases ho : EM_iterations Real.exp Real.log 1 L db with _ | o
        · rw [ho] at hret
          exact absurd hret (by simp [emReturns])
        · cases o with
          | success g2 => exact ⟨g2, rfl⟩
          | massFailure =>
            rw [ho] at hret
            exact absurd hret (by simp [emReturns])
          | monoFailure =>
            rw [ho] at hret
            exact absurd hret (by simp [emReturns])
      obtain ⟨g2, hg2⟩ := hsucc2
      rw [EM_iterations] at hg2
      exact EMloop_one_no_success L (initF db) g2 hg2

theorem activeE_singleRef (L : PyDict (ℕ × ℕ) ℝ) (db : Finset ℕ) (s0 : ℕ)
    (hs0 : ∀ p ∈ L.keys, p.2 = s0) (hdb : s0 ∈ db) :
    activeE L db = L.keys := by
  rw [activeE]
  refine Finset.filter_true_of_mem (fun p hp => ?_)
  rw [hs0 p hp]
  exact hdb

theorem updF_singleRef_val (L : PyDict (ℕ × ℕ) ℝ) (db : Finset ℕ)
    (f : PyDict ℕ ℝ) (s0 : ℕ) (hs0 : ∀ p ∈ L.keys, p.2 = s0)
    (hE : activeP L f = activeE L db) :
    (updF Real.exp Real.log L f).val = fun s =>
      ((readsFor (activeE L db) s).card : ℝ) /
        ((readsOf (activeE L db)).card : ℝ) := by
  funext s
  simp only [updF, hE]
  congr 1
  have hone : ∀ r ∈ readsFor (activeE L db) s,
      wgtF Real.exp Real.log L (activeE L db) f r s /
        WrF Real.exp Real.log L (activeE L db) f r = 1 := by
    intro r hr
    have hrs : (r, s) ∈ activeE L db := mem_readsFor.mp hr
    have hrefs : refsFor (activeE L db) r = {s} := by
      refine Finset.ext (fun s2 => ?_)
      rw [Finset.mem_singleton, mem_refsFor]
      constructor
      · intro h2
        have e1 : s2 = s0 := hs0 _ (Finset.mem_filter.mp h2).1
        have e2 : s = s0 := hs0 _ (Finset.mem_filter.mp hrs).1
        rw [e1, e2]
      · intro h2
        rw [h2]
        exact hrs
    rw [WrF, hrefs, Finset.sum_singleton]
    exact div_self (ne_of_gt (Real.exp_pos _))
  rw [Finset.sum_congr rfl hone, Finset.sum_const, nsmul_eq_mul, mul_one]

theorem refsOf_singleRef (L : PyDict (ℕ × ℕ) ℝ) (s0 : ℕ)
    (hne : L.keys.Nonempty) (hs0 : ∀ p ∈ L.keys, p.2 = s0) :
    refsOf L.keys = {s0} := by
  refine Finset.ext (fun s => ?_)
  rw [Finset.mem_singleton, mem_refsOf]
  constructor
  · rintro ⟨r, hr⟩
    exact hs0 _ hr
  · intro h
    obtain ⟨p, hp⟩ := hne
    refine ⟨p.1, ?_⟩
    rw [h, ← hs0 p hp, Prod.mk.eta]
    exact hp

theorem updF_singleRef_keys (L : PyDict (ℕ × ℕ) ℝ) (db : Finset ℕ)
    (f : PyDict ℕ ℝ) (s0 : ℕ) (hne : L.keys.Nonempty)
    (hs0 : ∀ p ∈ L.keys, p.2 = s0) (hdb : s0 ∈ db)
    (hE : activeP L f = activeE L db) :
    (updF Real.exp Real.log L f).keys = {s0} := by
  rw [updF_keys L f hE, activeE_singleRef L db s0 hs0 hdb]
  exact refsOf_singleRef L s0 hne hs0

theorem updF_singleRef_val_s0 (L : PyDict (ℕ × ℕ) ℝ) (db : Finset ℕ)
    (f : PyDict ℕ ℝ) (s0 : ℕ) (hne : L.keys.Nonempty)
    (hs0 : ∀ p ∈ L.keys, p.2 = s0) (hdb : s0 ∈ db)
    (hE : activeP L f = activeE L db) :
    (updF Real.exp Real.log L f).val s0 = 1 := by
  rw [updF_singleRef_val L db f s0 hs0 hE]
  have hE0 : activeE L db = L.keys := activeE_singleRef L db s0 hs0 hdb
  have hsame : readsFor (activeE L db) s0 = readsOf (activeE L db) := by
    refine Finset.ext (fun r => ?_)
    rw [mem_readsFor, mem_readsOf]
    constructor
    · intro h
      exact ⟨s0, h⟩
    · rintro ⟨s, hs⟩
      have he : s = s0 := by
        refine hs0 (r, s) ?_
        rw [← hE0]
        exact hs
      rwa [he] at hs
  show ((readsFor (activeE L db) s0).card : ℝ) /
    ((readsOf (activeE L db)).card : ℝ) = 1
  rw [hsame]
  refine div_self ?_
  have hnr : (readsOf (activeE L db)).Nonempty := by
    obtain ⟨p, hp⟩ := hne
    refine ⟨p.1, mem_readsOf.mpr ⟨p.2, ?_⟩⟩
    rw [Prod.mk.eta, hE0]
    exact hp
  exact ne_of_gt (by exact_mod_cast Finset.card_pos.mpr hnr)

theorem singleRef_run (L : PyDict (ℕ × ℕ) ℝ) (db : Finset ℕ) (s0 : ℕ)
    (hne : L.keys.Nonempty) (hs0 : ∀ p ∈ L.keys, p.2 = s0) (hdb : s0 ∈ db)
    (fuel : ℕ) (hf : 3 ≤ fuel) :
    emReturns (EM_iterations Real.exp Real.log fuel L db) ∧
    outKeys (EM_iterations Real.exp Real.log fuel L db) = {s0} ∧
    outVal (EM_iterations Real.exp Real.log fuel L db) s0 = 1 := by
  obtain ⟨n, rfl⟩ : ∃ n, fuel = n + 3 := ⟨fuel - 3, by omega⟩
  have hdbne : db.Nonempty := ⟨s0, hdb⟩
  have hEact : activeE L db = L.keys := activeE_singleRef L db s0 hs0 hdb
  have hEne : (activeE L db).Nonempty := by
    rw [hEact]
    exact hne
  have hG0 : Good L db (initF db) := good_init L db hdbne
  have hG1 : Good L db (updF Real.exp Real.log L (initF db)) :=
    good_updF L db (initF db) hG0 hEne
  have hmass1 : (999 / 1000 : ℝ) ≤
      sumF (updF Real.exp Real.log L (initF db)) ∧
      sumF (updF Real.exp Real.log L (initF db)) ≤ 10001 / 10000 := by
    rw [sumF_updF L db (initF db) hG0.1 hG0.2.1 hEne]
    norm_num
  have hmass2 : (999 / 1000 : ℝ) ≤
      sumF (updF Real.exp Real.log L (updF Real.exp Real.log L (initF db))) ∧
      sumF (updF Real.exp Real.log L (updF Real.exp Real.log L (initF db))) ≤
        10001 / 10000 := by
    rw [sumF_updF L db _ hG1.1 hG1.2.1 hEne]
    norm_num
  have hfix : updF Real.exp Real.log L (updF Real.exp Real.log L (initF db)) =
      updF Real.exp Real.log L (initF db) := by
    apply PyDict.ext
    · rw [updF_keys L _ hG1.1, updF_keys L _ hG0.1]
    · rw [updF_singleRef_val L db _ s0 hs0 hG1.1,
        updF_singleRef_val L db _ s0 hs0 hG0.1]
  have hkeys2 : (updF Real.exp Real.log L (updF Real.exp Real.log L (initF db))).keys
      = {s0} := updF_singleRef_keys L db _ s0 hne hs0 hdb hG1.1
  have hval2 : (updF Real.exp Real.log L (updF Real.exp Real.log L (initF db))).val s0
      = 1 := updF_singleRef_val_s0 L db _ s0 hne hs0 hdb hG1.1
  have key : ∃ fd, EMloop Real.exp Real.log L (n + 3) (initF db) none =
      some (EMoutcome.success fd) ∧ fd.keys = {s0} ∧ fd.val s0 = 1 := by
    have e1 : EMloop Real.exp Real.log L (n + 3) (initF db) none =
        EMloop Real.exp Real.log L (n + 2)
          (updF Real.exp Real.log L (initF db))
          (some (totalLL Real.exp Real.log L (initF db))) := by
      show EMloop Real.exp Real.log L ((n + 2) + 1) (initF db) none = _
      simp only [EMloop]
      rw [if_neg (not_not_intro hmass1)]
    rw [e1]
    have hmono1 : ¬ (totalLL Real.exp Real.log L
        (updF Real.exp Real.log L (initF db)) -
        totalLL Real.exp Real.log L (initF db) < 0) := by
      rw [not_lt, sub_nonneg]
      exact totalLL_mono L db (initF db) hG0 hEne
    by_cases hexit : totalLL Real.exp Real.log L
        (updF Real.exp Real.log L (initF db)) -
        totalLL Real.exp Real.log L (initF db) < 1 / 100
    · refine ⟨updF Real.exp Real.log L (updF Real.exp Real.log L (initF db)),
        ?_, hkeys2, hval2⟩
      show EMloop Real.exp Real.log L ((n + 1) + 1)
        (updF Real.exp Real.log L (initF db))
        (some (totalLL Real.exp Real.log L (initF db))) = _
      simp only [EMloop]
      rw [if_neg (not_not_intro hmass2), if_neg hmono1, if_pos hexit]
    · have e2 : EMloop Real.exp Real.log L (n + 2)
          (updF Real.exp Real.log L (initF db))
          (some (totalLL Real.exp Real.log L (initF db))) =
          EMloop Real.exp Real.log L (n + 1)
            (updF Real.exp Real.log L (updF Real.exp Real.log L (initF db)))
            (some (totalLL Real.exp Real.log L
              (updF Real.exp Real.log L (initF db)))) := by
        show EMloop Real.exp Real.log L ((n + 1) + 1) _ _ = _
        simp only [EMloop]
        rw [if_neg (not_not_intro hmass2), if_neg hmono1, if_neg hexit]
      rw [e2, hfix]
      refine ⟨updF Real.exp Real.log L (updF Real.exp Real.log L (initF db)),
        ?_, hkeys2, hval2⟩
      show EMloop Real.exp Real.log L (n + 1)
        (updF Real.exp Real.log L (initF db))
        (some (totalLL Real.exp Real.log L
          (updF Real.exp Real.log L (initF db)))) = _
      show EMloop Real.exp Real.log L (n + 1 : ℕ) _ _ = _
      cases n with
      | zero =>
        show EMloop Real.exp Real.log L (0 + 1) _ _ = _
        simp only [EMloop]
        rw [if_neg (not_not_intro hmass2)]
        rw [if_neg (by simp), if_pos (by norm_num), hfix]
      | succ m =>
        show EMloop Real.exp Real.log L ((m + 1) + 1) _ _ = _
        simp only [EMloop]
        rw [if_neg (not_not_intro hmass2)]
        rw [if_neg (by simp), if_pos (by norm_num), hfix]
  obtain ⟨fd, hfd, hk, hv⟩ := key
  rw [EM_iterations, hfd]
  refine ⟨trivial, hk, hv⟩

/-- C5 counterexample: on a matrix where the only read aligns to the single
reference of the database, a run with fuel for exactly one iteration has
not yet returned (the first iteration never passes the convergence exit,
whose test compares against the initial `-inf` objective), refuting
"converges in one iteration". -/
theorem claim_C5_counterexample :
    EM_iterations Real.exp Real.log 1 L0 ({0} : Finset ℕ) = none := by
  have hdb : ({0} : Finset ℕ).Nonempty := ⟨0, Finset.mem_singleton_self 0⟩
  have hne : (activeE L0 {0}).Nonempty :=
    ⟨(0, 0), Finset.mem_filter.mpr ⟨by decide, by decide⟩⟩
  have hG0 : Good L0 {0} (initF {0}) := good_init L0 {0} hdb
  have hmass : (999 / 1000 : ℝ) ≤
      sumF (updF Real.exp Real.log L0 (initF {0})) ∧
      sumF (updF Real.exp Real.log L0 (initF {0})) ≤ 10001 / 10000 := by
    rw [sumF_updF L0 {0} (initF {0}) hG0.1 hG0.2.1 hne]
    norm_num
  rw [EM_iterations]
  show EMloop Real.exp Real.log L0 (0 + 1) (initF {0}) none = none
  simp only [EMloop]
  rw [if_neg (not_not_intro hmass)]

/-- C5 amended: on a matrix in which every alignment points at the single
common reference `s0` of the database universe, the abundance vector
reaches the point mass at `s0` after the first update step and the run
returns it with abundance exactly 1 — but only after two or three loop
iterations (any fuel of at least 3 suffices), never after one. -/
theorem claim_C5 (L : PyDict (ℕ × ℕ) ℝ) (db : Finset ℕ) (s0 : ℕ)
    (hne : L.keys.Nonempty) (hs0 : ∀ p ∈ L.keys, p.2 = s0) (hdb : s0 ∈ db)
    (fuel : ℕ) (hf : 3 ≤ fuel) :
    emReturns (EM_iterations Real.exp Real.log fuel L db) ∧
    outKeys (EM_iterations Real.exp Real.log fuel L db) = {s0} ∧
    outVal (EM_iterations Real.exp Real.log fuel L db) s0 = 1 :=
  singleRef_run L db s0 hne hs0 hdb fuel hf

/-- C5 witness: the amended statement applied to the one-entry matrix `L0`
with database `{0}` and fuel 3. -/
theorem claim_C5_witness :
    emReturns (EM_iterations Real.exp Real.log 3 L0 ({0} : Finset ℕ)) ∧
    outKeys (EM_iterations Real.exp Real.log 3 L0 ({0} : Finset ℕ)) = {0} ∧
    outVal (EM_iterations Real.exp Real.log 3 L0 ({0} : Finset ℕ)) 0 = 1 :=
  claim_C5 L0 {0} 0 (by decide) (by decide) (by decide) 3 (by norm_num)

/-- C10 witness: a returning run on the one-entry matrix `L0` with database
`{0}` has key set exactly the aligned references of the database. -/
theorem claim_C10_witness :
    emReturns (EM_iterations Real.exp Real.log 4 L0 ({0} : Finset ℕ)) ∧
    outKeys (EM_iterations Real.exp Real.log 4 L0 ({0} : Finset ℕ)) = {0} := by
  have hret := (singleRef_run L0 {0} 0 (by decide) (by decide) (by decide) 4
    (by norm_num)).1
  have h := (claim_C10 L0 {0} 4 hret).1
  refine ⟨hret, ?_⟩
  rw [h]
  decide
